import Mathlib

/-!
Shallow embedding of the `arc` archive container (Go) and proofs about it.

Byte strings are modelled as `List Nat` (each element a byte value).
External cryptographic primitives (ChaCha20-Poly1305, SHAKE-256, the
password KDF of `encdec`, base64) are outside the repository and are
modelled symbolically: an AEAD seal is a record holding key, nonce and
plaintext, and opening checks key and nonce for equality, which is the
standard perfect-authentication idealisation of an AEAD.  Streaming
compression (`zstd`) and streaming encryption (`encdec`) are modelled as
abstract stream transformers supplied as parameters.
-/

namespace Arc

/-- Byte strings. -/
abbrev Bytes := List Nat

/-! ## Crypto module: `src/crypto.go` -/

/-- Constant `padBlocksize` from `src/crypto.go`. -/
def padBlocksize : Nat := 100

/-- Model of `padFilename` (`src/crypto.go`): PKCS#7-style pad to the
next multiple of `padBlocksize`; a full block is appended when the
length is already a multiple. -/
def padFilename (buffer : Bytes) : Bytes :=
  let padSize := padBlocksize - buffer.length % padBlocksize
  buffer ++ List.replicate padSize padSize

/-- Model of the counting loop of `unpadFilename`: walks the buffer from
the end (here: the reversed buffer from the front), stops at the first
byte differing from `padSize` or once `padSize` bytes were counted. -/
def countTrail (padSize : Nat) : Bytes → Nat → Nat
  | [], count => count
  | b :: rest, count =>
    if b ≠ padSize then count
    else if count + 1 = padSize then count + 1
    else countTrail padSize rest (count + 1)

/-- Model of `unpadFilename` (`src/crypto.go`).  `none` models the
`ErrPadding` error.  The Go code indexes `buffer[len(buffer)-1]` and
panics on an empty buffer; the empty case is mapped to `none` and all
theorems about it assume a non-empty buffer. -/
def unpadFilename (buffer : Bytes) : Option Bytes :=
  match buffer.getLast? with
  | none => none
  | some padSize =>
    let count := countTrail padSize buffer.reverse 0
    if count ≠ padSize then none
    else some (buffer.take (buffer.length - padSize))

/-- Size in bytes of a ChaCha20-Poly1305 nonce. -/
def chachaNonceSize : Nat := 12

/-- Big-endian 8-byte encoding of a (wrapped) integer, modelling
`binary.BigEndian.PutUint64`. -/
def be64 (n : Nat) : Bytes :=
  let v := n % 2 ^ 64
  [v / 2 ^ 56 % 256, v / 2 ^ 48 % 256, v / 2 ^ 40 % 256, v / 2 ^ 32 % 256,
   v / 2 ^ 24 % 256, v / 2 ^ 16 % 256, v / 2 ^ 8 % 256, v % 256]

/-- The nonce used to wrap a per-file master key: a 12-byte buffer whose
first 8 bytes are the big-endian file id and whose remaining bytes stay
zero (`generateFileMasterKey` / `readFileKey` in `src/crypto.go`). -/
def nonceOf (id : Nat) : Bytes := be64 id ++ List.replicate (chachaNonceSize - 8) 0

/-- The all-zero nonce used for filename encryption. -/
def zeroNonce : Bytes := List.replicate chachaNonceSize 0

/-- Symbolic key material.  `kdf` is the master key derived by
`encdec.Key` from a password and the stored KDF parameters (collision
free, as an ideal KDF); `filenameKey`/`fileDataKey` are the two SHAKE-256
halves produced by `stretchKey` from a per-file master key, which is
itself identified by the random seed that produced it. -/
inductive K where
  | kdf (password : Bytes) (params : Nat)
  | filenameKey (seed : Nat)
  | fileDataKey (seed : Nat)
deriving DecidableEq, Repr

/-- Model of `stretchKey` (`src/crypto.go`): SHAKE-256 expansion of a
per-file master key (identified by its seed) into a filename key and a
file-data key. -/
def stretchKey (seed : Nat) : K × K := (K.filenameKey seed, K.fileDataKey seed)

/-- Symbolic AEAD seal of a per-file master key (the blob stored in the
`encryption_metadata.key` column). -/
structure SealedKey where
  key : K
  nonce : Bytes
  fm : Nat
deriving DecidableEq, Repr

/-- Model of `generateFileMasterKey` (`src/crypto.go`).  The 32 random
bytes drawn by `rand.Read` are supplied as the seed `fmSeed`. -/
def generateFileMasterKey (masterKey : K) (id : Nat) (fmSeed : Nat) : SealedKey × Nat :=
  (⟨masterKey, nonceOf id, fmSeed⟩, fmSeed)

/-- Model of `readFileKey` (`src/crypto.go`): AEAD-open of the stored
per-file key blob under the master key and the id-derived nonce. -/
def readFileKey (encryptedKey : SealedKey) (id : Nat) (masterKey : K) : Option Nat :=
  if encryptedKey.key = masterKey ∧ encryptedKey.nonce = nonceOf id then
    some encryptedKey.fm
  else none

/-- Symbolic AEAD seal of a padded filename.  The base64 encoding that
the Go code applies to the ciphertext is an injective wrapper with a
total inverse on its range and is absorbed into this symbolic value. -/
structure SealedName where
  key : K
  nonce : Bytes
  pt : Bytes
deriving DecidableEq, Repr

/-- Model of `encryptFilename` (`src/crypto.go`): pad, then seal under
the filename key with an all-zero nonce. -/
def encryptFilename (filename : Bytes) (fnameKey : K) : SealedName :=
  ⟨fnameKey, zeroNonce, padFilename filename⟩

/-- Model of `decryptFilename` (`src/crypto.go`): AEAD-open under the
filename key and zero nonce, then unpad.  `none` models any error. -/
def decryptFilename (c : SealedName) (fnameKey : K) : Option Bytes :=
  if c.key = fnameKey ∧ c.nonce = zeroNonce then unpadFilename c.pt
  else none

/-! ### Padding lemmas -/

theorem countTrail_ge (p : Nat) (l : Bytes) (c : Nat) : c ≤ countTrail p l c := by
  induction l generalizing c with
  | nil => simp [countTrail]
  | cons b rest ih =>
    simp only [countTrail]
    split
    · exact Nat.le_refl _
    · split
      · omega
      · exact Nat.le_trans (Nat.le_succ c) (ih (c + 1))

/-- Leading-run characterisation of the counting loop: as long as the
count stays below the pad value, the result is the count plus the
leading run of pad bytes, capped at the pad value. -/
theorem countTrail_eq_min (p : Nat) (l : Bytes) (c : Nat) (hc : c < p) :
    countTrail p l c = min p (c + (List.takeWhile (fun x => decide (x = p)) l).length) := by
  induction l generalizing c with
  | nil => simp [countTrail]; omega
  | cons b rest ih =>
    by_cases hb : b = p
    · have h1 : countTrail p (b :: rest) c
          = if c + 1 = p then c + 1 else countTrail p rest (c + 1) := by
        simp [countTrail, hb]
      have h2 : List.takeWhile (fun x => decide (x = p)) (b :: rest)
          = b :: List.takeWhile (fun x => decide (x = p)) rest := by
        simp [List.takeWhile_cons, hb]
      rw [h1, h2]
      by_cases hcp : c + 1 = p
      · simp only [hcp, if_true, List.length_cons]
        omega
      · simp only [hcp, if_false]
        rw [ih (c + 1) (by omega)]
        simp only [List.length_cons]
        omega
    · have h1 : countTrail p (b :: rest) c = c := by simp [countTrail, hb]
      have h2 : List.takeWhile (fun x => decide (x = p)) (b :: rest) = [] := by
        simp [List.takeWhile_cons, hb]
      rw [h1, h2]
      simp
      omega

/-- A list starts with at least `k` copies of `q` iff its `k`-element
prefix is `replicate k q`. -/
theorem takeWhile_ge_iff (q : Nat) (l : Bytes) (k : Nat) :
    k ≤ (List.takeWhile (fun x => decide (x = q)) l).length ↔
      k ≤ l.length ∧ l.take k = List.replicate k q := by
  induction l generalizing k with
  | nil => cases k <;> simp
  | cons b rest ih =>
    cases k with
    | zero => simp
    | succ k' =>
      by_cases hb : b = q
      · have h2 : List.takeWhile (fun x => decide (x = q)) (b :: rest)
            = b :: List.takeWhile (fun x => decide (x = q)) rest := by
          simp [List.takeWhile_cons, hb]
        rw [h2]
        constructor
        · intro h
          have hk : k' ≤ (List.takeWhile (fun x => decide (x = q)) rest).length := by
            simp at h; omega
          have hr := (ih k').mp hk
          refine ⟨by simp; omega, ?_⟩
          simp [List.take_succ_cons, List.replicate_succ, hb, hr.2]
        · intro h
          have h2' : rest.take k' = List.replicate k' q := by
            have := h.2
            simp [List.take_succ_cons, List.replicate_succ] at this
            exact this.2
          have := (ih k').mpr ⟨by have := h.1; simp at this; omega, h2'⟩
          simp
          omega
      · have h2 : List.takeWhile (fun x => decide (x = q)) (b :: rest) = [] := by
          simp [List.takeWhile_cons, hb]
        rw [h2]
        constructor
        · intro h; simp at h
        · intro h
          exfalso
          have := h.2
          simp [List.take_succ_cons, List.replicate_succ] at this
          exact hb this.1

/-- Padding then unpadding restores the original buffer. -/
theorem unpad_pad (buffer : Bytes) : unpadFilename (padFilename buffer) = some buffer := by
  have hmod : buffer.length % padBlocksize < padBlocksize := Nat.mod_lt _ (by decide)
  set p := padBlocksize - buffer.length % padBlocksize with hpdef
  have hp1 : 1 ≤ p := by omega
  have hple : p ≤ padBlocksize := by omega
  have hpad : padFilename buffer = buffer ++ List.replicate p p := rfl
  have hlast : (padFilename buffer).getLast? = some p := by
    rw [hpad, List.getLast?_append, List.getLast?_replicate]
    have : ¬(p = 0) := by omega
    simp [this]
  have hlen : (padFilename buffer).length = buffer.length + p := by
    simp [hpad]
  have htw : List.takeWhile (fun x => decide (x = p)) (List.replicate p p)
      = List.replicate p p := by
    rw [List.takeWhile_replicate]; simp
  have hcount : countTrail p (padFilename buffer).reverse 0 = p := by
    rw [countTrail_eq_min p _ 0 (by omega)]
    rw [hpad, List.reverse_append, List.reverse_replicate, List.takeWhile_append, htw]
    simp
  rw [unpadFilename, hlast]
  simp only
  rw [hcount]
  rw [if_neg (by simp)]
  rw [hlen]
  have : buffer.length + p - p = buffer.length := by omega
  rw [this, hpad, List.take_left]

/-! ## Block Store: `dataWriter` in `src/unnamed/part_002`

The `dataWriter` chunks a byte stream into `blockSize`-byte rows of the
`data` table.  Database effects are recorded in the `rows` field (the
`INSERT INTO data VALUES (?, ?, ?)` executions, in order); transactions
and prepared statements carry no information relevant to the stored
rows on the happy path and are not modelled. -/

/-- A row of the `data` table: `(id, block_id, payload)`. -/
abbrev DataRow := Nat × Nat × Bytes

@[ext]
structure DataWriter where
  id : Nat
  currBlock : Nat
  blockSize : Nat
  buffer : Bytes
  rows : List DataRow
deriving DecidableEq, Repr

/-- Model of `newDataWriter`. -/
def newDataWriter (id blocksize : Nat) : DataWriter :=
  ⟨id, 0, blocksize, [], []⟩

/-- Model of `dataWriter.Flush`: insert the buffer as the row with the
current block index, reset the buffer, increment the index. -/
def DataWriter.Flush (d : DataWriter) : DataWriter :=
  { d with rows := d.rows ++ [(d.id, d.currBlock, d.buffer)],
           buffer := [], currBlock := d.currBlock + 1 }

/-- The loop of `dataWriter.Write`, iteration count bounded by `fuel`:
take `size = min(blockSize - len(buffer), len(p))` bytes into the
buffer, flush when the buffer is full, continue with the rest of `p`.
Whenever the buffer holds fewer than `blockSize` bytes (the invariant
maintained by the source) each iteration consumes at least one byte, so
`len(p) + 1` fuel is exact; for `blockSize = 0` the Go loop never
terminates and the model stops when the fuel runs out. -/
def writeLoop : Nat → DataWriter → Bytes → DataWriter
  | 0, d, _ => d
  | fuel + 1, d, p =>
    if p = [] then d
    else if (d.buffer ++ p.take (min (d.blockSize - d.buffer.length) p.length)).length
        = d.blockSize then
      writeLoop fuel
        (DataWriter.Flush
          { d with buffer := d.buffer ++ p.take (min (d.blockSize - d.buffer.length) p.length) })
        (p.drop (min (d.blockSize - d.buffer.length) p.length))
    else
      writeLoop fuel
        { d with buffer := d.buffer ++ p.take (min (d.blockSize - d.buffer.length) p.length) }
        (p.drop (min (d.blockSize - d.buffer.length) p.length))

/-- Model of `dataWriter.Write`. -/
def DataWriter.Write (d : DataWriter) (p : Bytes) : DataWriter :=
  writeLoop (p.length + 1) d p

/-- Model of `dataWriter.Close`: an unconditional final flush (the
statement close and the transaction commit do not change the rows). -/
def DataWriter.Close (d : DataWriter) : DataWriter := d.Flush

/-- Full `B`-byte blocks of `s`, fuel-bounded helper. -/
def chunksLoop (B : Nat) : Nat → Bytes → List Bytes
  | 0, _ => []
  | fuel + 1, s =>
    if B ≠ 0 ∧ B ≤ s.length then s.take B :: chunksLoop B fuel (s.drop B) else []

/-- The maximal list of consecutive full `B`-byte blocks of `s`. -/
def chunksOf (B : Nat) (s : Bytes) : List Bytes := chunksLoop B s.length s

/-- The remainder of `s` after its full `B`-byte blocks. -/
def remOf (B : Nat) (s : Bytes) : Bytes := s.drop ((chunksOf B s).length * B)

/-- The rows inserted for a list of payloads, numbered from `k`. -/
def numberFrom (id k : Nat) : List Bytes → List DataRow
  | [] => []
  | c :: cs => (id, k, c) :: numberFrom id (k + 1) cs

theorem chunksLoop_congr (B : Nat) (f1 : Nat) :
    ∀ (f2 : Nat) (s : Bytes), s.length ≤ f1 → s.length ≤ f2 →
      chunksLoop B f1 s = chunksLoop B f2 s := by
  induction f1 with
  | zero =>
    intro f2 s h1 _
    have hs : s = [] := by cases s <;> simp_all
    subst hs
    cases f2 <;> simp [chunksLoop]
  | succ f1' ih =>
    intro f2 s h1 h2
    cases f2 with
    | zero =>
      have hs : s = [] := by cases s <;> simp_all
      subst hs
      simp [chunksLoop]
    | succ f2' =>
      simp only [chunksLoop]
      by_cases hc : B ≠ 0 ∧ B ≤ s.length
      · rw [if_pos hc, if_pos hc]
        have hd : (s.drop B).length ≤ f1' := by simp; omega
        have hd2 : (s.drop B).length ≤ f2' := by simp; omega
        rw [ih f2' (s.drop B) hd hd2]
      · rw [if_neg hc, if_neg hc]

/-- Unfolding equation for `chunksOf`. -/
theorem chunksOf_eq (B : Nat) (s : Bytes) :
    chunksOf B s
      = if B ≠ 0 ∧ B ≤ s.length then s.take B :: chunksOf B (s.drop B) else [] := by
  by_cases hc : B ≠ 0 ∧ B ≤ s.length
  · rw [if_pos hc]
    obtain ⟨len, hlen⟩ : ∃ l, s.length = l + 1 := by
      have : 1 ≤ s.length := by omega
      exact ⟨s.length - 1, by omega⟩
    rw [chunksOf, hlen]
    simp only [chunksLoop, if_pos hc]
    rw [chunksOf]
    have hd : (s.drop B).length ≤ len := by simp; omega
    rw [chunksLoop_congr B len (s.drop B).length (s.drop B) hd (Nat.le_refl _)]
  · rw [if_neg hc, chunksOf]
    cases hl : s.length with
    | zero => simp [chunksLoop]
    | succ n => simp only [chunksLoop]; rw [if_neg hc]

theorem remOf_shift (B : Nat) (s : Bytes) (h : B ≠ 0 ∧ B ≤ s.length) :
    remOf B s = remOf B (s.drop B) := by
  rw [remOf, remOf]
  conv_lhs => rw [chunksOf_eq, if_pos h]
  rw [List.length_cons, Nat.succ_mul, Nat.add_comm, ← List.drop_drop]

theorem remOf_of_short (B : Nat) (s : Bytes) (h : ¬(B ≠ 0 ∧ B ≤ s.length)) :
    remOf B s = s := by
  rw [remOf]
  conv_lhs => rw [chunksOf_eq, if_neg h]
  simp

theorem chunksOf_join_aux (B : Nat) (fuel : Nat) :
    ∀ s : Bytes, s.length ≤ fuel → (chunksOf B s).join ++ remOf B s = s := by
  induction fuel with
  | zero =>
    intro s hs
    have : s = [] := by cases s <;> simp_all
    subst this
    rw [chunksOf_eq]
    simp [remOf_of_short, remOf]
  | succ f ih =>
    intro s hs
    by_cases hc : B ≠ 0 ∧ B ≤ s.length
    · rw [chunksOf_eq, if_pos hc, remOf_shift B s hc]
      have hd : (s.drop B).length ≤ f := by simp; omega
      have := ih (s.drop B) hd
      simp only [List.join_cons, List.append_assoc, this]
      exact List.take_append_drop B s
    · rw [chunksOf_eq, if_neg hc, remOf_of_short B s hc]
      simp

/-- Concatenating the full blocks and the remainder restores the stream. -/
theorem chunksOf_join (B : Nat) (s : Bytes) :
    (chunksOf B s).join ++ remOf B s = s :=
  chunksOf_join_aux B s.length s (Nat.le_refl _)

theorem chunksOf_length_aux (B : Nat) (hB : 0 < B) (fuel : Nat) :
    ∀ s : Bytes, s.length ≤ fuel → (chunksOf B s).length = s.length / B := by
  induction fuel with
  | zero =>
    intro s hs
    have : s = [] := by cases s <;> simp_all
    subst this
    rw [chunksOf_eq]
    simp
  | succ f ih =>
    intro s hs
    by_cases hc : B ≠ 0 ∧ B ≤ s.length
    · rw [chunksOf_eq, if_pos hc, List.length_cons]
      have hd : (s.drop B).length ≤ f := by simp; omega
      rw [ih (s.drop B) hd]
      rw [Nat.div_eq_sub_div hB hc.2]
      simp
    · rw [chunksOf_eq, if_neg hc]
      have : s.length < B := by omega
      simp [Nat.div_eq_of_lt this]

theorem chunksOf_length (B : Nat) (hB : 0 < B) (s : Bytes) :
    (chunksOf B s).length = s.length / B :=
  chunksOf_length_aux B hB s.length s (Nat.le_refl _)

theorem chunksOf_mem_length_aux (B : Nat) (fuel : Nat) :
    ∀ s : Bytes, s.length ≤ fuel → ∀ c ∈ chunksOf B s, c.length = B := by
  induction fuel with
  | zero =>
    intro s hs
    have : s = [] := by cases s <;> simp_all
    subst this
    rw [chunksOf_eq]
    simp
  | succ f ih =>
    intro s hs c hcmem
    by_cases hc : B ≠ 0 ∧ B ≤ s.length
    · rw [chunksOf_eq, if_pos hc] at hcmem
      rcases List.mem_cons.mp hcmem with h | h
      · subst h; rw [List.length_take]; omega
      · exact ih (s.drop B) (by simp; omega) c h
    · rw [chunksOf_eq, if_neg hc] at hcmem
      simp at hcmem

/-- Every full block has exactly `B` bytes. -/
theorem chunksOf_mem_length (B : Nat) (s : Bytes) :
    ∀ c ∈ chunksOf B s, c.length = B :=
  chunksOf_mem_length_aux B s.length s (Nat.le_refl _)

theorem remOf_length_aux (B : Nat) (hB : 0 < B) (fuel : Nat) :
    ∀ s : Bytes, s.length ≤ fuel → (remOf B s).length < B := by
  induction fuel with
  | zero =>
    intro s hs
    have : s = [] := by cases s <;> simp_all
    subst this
    rw [remOf_of_short B [] (by simp)]
    simp
    omega
  | succ f ih =>
    intro s hs
    by_cases hc : B ≠ 0 ∧ B ≤ s.length
    · rw [remOf_shift B s hc]
      exact ih (s.drop B) (by simp; omega)
    · rw [remOf_of_short B s hc]
      omega

/-- The remainder is a strictly partial block. -/
theorem remOf_length (B : Nat) (hB : 0 < B) (s : Bytes) : (remOf B s).length < B :=
  remOf_length_aux B hB s.length s (Nat.le_refl _)

/-- The remainder is empty exactly on block-aligned streams. -/
theorem remOf_of_dvd (B : Nat) (hB : 0 < B) (s : Bytes) (h : s.length % B = 0) :
    remOf B s = [] := by
  rw [remOf, chunksOf_length B hB]
  have : s.length / B * B = s.length :=
    Nat.div_mul_cancel (Nat.dvd_of_mod_eq_zero h)
  rw [this]
  exact List.drop_eq_nil_of_le (Nat.le_refl _)

theorem numberFrom_length (id k : Nat) (cs : List Bytes) :
    (numberFrom id k cs).length = cs.length := by
  induction cs generalizing k with
  | nil => simp [numberFrom]
  | cons c cs ih => simp [numberFrom, ih]

theorem numberFrom_map_fst (id k : Nat) (cs : List Bytes) :
    (numberFrom id k cs).map (fun r => r.1) = List.replicate cs.length id := by
  induction cs generalizing k with
  | nil => simp [numberFrom]
  | cons c cs ih => simp [numberFrom, ih, List.replicate_succ]

theorem numberFrom_map_idx (id k : Nat) (cs : List Bytes) :
    (numberFrom id k cs).map (fun r => r.2.1) = List.range' k cs.length := by
  induction cs generalizing k with
  | nil => simp [numberFrom]
  | cons c cs ih => simp [numberFrom, ih, List.range'_succ]

theorem numberFrom_map_payload (id k : Nat) (cs : List Bytes) :
    (numberFrom id k cs).map (fun r => r.2.2) = cs := by
  induction cs generalizing k with
  | nil => simp [numberFrom]
  | cons c cs ih => simp [numberFrom, ih]

/-- Net effect of the `dataWriter.Write` loop: starting from a state
whose buffer holds a strictly partial block, the full blocks of
`buffer ++ p` are inserted as consecutively numbered rows and the
remainder stays in the buffer. -/
theorem writeLoop_spec (fuel : Nat) :
    ∀ (d : DataWriter) (p : Bytes),
      d.buffer.length < d.blockSize → p.length < fuel →
      writeLoop fuel d p =
        { id := d.id,
          currBlock := d.currBlock + (chunksOf d.blockSize (d.buffer ++ p)).length,
          blockSize := d.blockSize,
          buffer := remOf d.blockSize (d.buffer ++ p),
          rows := d.rows ++ numberFrom d.id d.currBlock (chunksOf d.blockSize (d.buffer ++ p)) } := by
  induction fuel with
  | zero => intro d p _ hf; omega
  | succ f ih =>
    intro d p hbuf hf
    by_cases hp : p = []
    · subst hp
      have hc : chunksOf d.blockSize (d.buffer ++ []) = [] := by
        rw [chunksOf_eq, if_neg]
        simp
        omega
      have hr : remOf d.blockSize (d.buffer ++ []) = d.buffer ++ [] := by
        apply remOf_of_short
        simp
        omega
      simp only [writeLoop, if_pos rfl, hc, hr, numberFrom]
      ext <;> simp
    · have hB0 : d.blockSize ≠ 0 := by omega
      have hplen : 1 ≤ p.length := by
        have := List.length_pos.mpr hp
        omega
      simp only [writeLoop, if_neg hp]
      generalize hsize : min (d.blockSize - d.buffer.length) p.length = size
      have hszpos : 1 ≤ size := by omega
      have hszle : size ≤ p.length := by omega
      have htake : (p.take size).length = size := by
        rw [List.length_take]
        omega
      have hlen' : (d.buffer ++ p.take size).length = d.buffer.length + size := by
        simp [htake]
      by_cases hfull : (d.buffer ++ p.take size).length = d.blockSize
      · rw [if_pos hfull]
        have hfull' : d.buffer.length + size = d.blockSize := by
          rw [← hlen']
          exact hfull
        have hlenbp : (d.buffer ++ p).length = d.buffer.length + p.length := by simp
        have hBle : d.blockSize ≤ (d.buffer ++ p).length := by omega
        have hBbl : d.blockSize - d.buffer.length = size := by omega
        have htakeB : List.take d.blockSize d.buffer = d.buffer :=
          List.take_of_length_le (by omega)
        have hdropB : List.drop d.blockSize d.buffer = ([] : Bytes) :=
          List.drop_eq_nil_of_le (by omega)
        have hcons :
            chunksOf d.blockSize (d.buffer ++ p)
              = (d.buffer ++ p.take size) :: chunksOf d.blockSize (p.drop size) := by
          rw [chunksOf_eq, if_pos ⟨hB0, hBle⟩]
          rw [List.take_append_eq_append_take, htakeB, hBbl]
          rw [List.drop_append_eq_append_drop, hdropB, hBbl, List.nil_append]
        have hrem :
            remOf d.blockSize (d.buffer ++ p) = remOf d.blockSize (p.drop size) := by
          rw [remOf_shift d.blockSize (d.buffer ++ p) ⟨hB0, hBle⟩]
          rw [List.drop_append_eq_append_drop, hdropB, hBbl, List.nil_append]
        have hf' : (p.drop size).length < f := by
          rw [List.length_drop]
          omega
        rw [ih _ (p.drop size) (by simp [DataWriter.Flush]; omega) hf']
        simp only [DataWriter.Flush]
        ext
        · rfl
        · simp only [List.nil_append, hcons, List.length_cons]
          omega
        · rfl
        · simp only [List.nil_append, hrem]
        · simp only [List.nil_append, hcons, numberFrom, List.append_assoc,
            List.cons_append, List.nil_append]
      · rw [if_neg hfull]
        have hszp : size = p.length := by omega
        have hdrop : p.drop size = [] := by
          rw [hszp]
          simp
        have htakep : p.take size = p := by
          rw [hszp]
          simp
        have hshort : ¬(d.blockSize ≠ 0 ∧ d.blockSize ≤ (d.buffer ++ p).length) := by
          simp
          intro _
          omega
        have hc : chunksOf d.blockSize (d.buffer ++ p) = [] := by
          rw [chunksOf_eq, if_neg hshort]
        have hr : remOf d.blockSize (d.buffer ++ p) = d.buffer ++ p := by
          exact remOf_of_short _ _ hshort
        rw [hdrop, htakep]
        have hf'' : (0 : Nat) < f := by omega
        have := ih { d with buffer := d.buffer ++ p } [] (by simp; omega) (by simp; omega)
        rw [this]
        have hc2 : chunksOf d.blockSize ((d.buffer ++ p) ++ []) = [] := by
          rw [List.append_nil]
          exact hc
        have hr2 : remOf d.blockSize ((d.buffer ++ p) ++ []) = d.buffer ++ p := by
          rw [List.append_nil]
          exact hr
        ext
        · rfl
        · simp only [hc2, hc, List.length_nil]
        · rfl
        · simp only [hr2, hr]
        · simp only [hc2, hc, numberFrom, List.append_nil]

/-- Write a whole stream through a fresh `dataWriter` and close it. -/
def DataWriter.run (B id : Nat) (p : Bytes) : DataWriter :=
  ((newDataWriter id B).Write p).Close

/-- Closed form of a full write-then-close cycle: the full blocks become
rows `0..n-1` and the close flushes the remainder (possibly empty) as
row `n`. -/
theorem DataWriter.run_spec (B id : Nat) (p : Bytes) (hB : 0 < B) :
    DataWriter.run B id p =
      { id := id,
        currBlock := (chunksOf B p).length + 1,
        blockSize := B,
        buffer := [],
        rows := numberFrom id 0 (chunksOf B p)
          ++ [(id, (chunksOf B p).length, remOf B p)] } := by
  rw [DataWriter.run, DataWriter.Write, newDataWriter]
  rw [writeLoop_spec (p.length + 1) _ p (by simpa using hB) (by omega)]
  simp only [DataWriter.Close, DataWriter.Flush, List.nil_append]
  ext <;> simp

/-- General characterisation of `unpadFilename` on a non-empty buffer
whose last byte is `p`: the last `p` bytes are removed exactly when
`p ≥ 1` and the `p` trailing bytes all equal `p`; otherwise the padding
error is returned. -/
theorem unpadFilename_spec (buffer : Bytes) (p : Nat) (h : buffer.getLast? = some p) :
    unpadFilename buffer =
      if 1 ≤ p ∧ p ≤ buffer.length ∧ buffer.drop (buffer.length - p) = List.replicate p p
      then some (buffer.take (buffer.length - p))
      else none := by
  unfold unpadFilename
  rw [h]
  simp only
  by_cases hp0 : p = 0
  · subst hp0
    have hged : 1 ≤ countTrail 0 buffer.reverse 0 := by
      have hh : buffer.reverse.head? = some 0 := by rw [List.head?_reverse]; exact h
      cases hr : buffer.reverse with
      | nil => rw [hr] at hh; simp at hh
      | cons a t =>
        rw [hr] at hh
        simp at hh
        subst hh
        have hstep : countTrail 0 (0 :: t) 0 = countTrail 0 t 1 := by
          simp [countTrail]
        rw [hstep]
        exact countTrail_ge 0 t 1
    rw [if_pos (by omega), if_neg (by rintro ⟨h1, -⟩; omega)]
  · have hp1 : 0 < p := by omega
    have hcm := countTrail_eq_min p buffer.reverse 0 hp1
    have hiff : p ≤ (List.takeWhile (fun x => decide (x = p)) buffer.reverse).length ↔
        p ≤ buffer.length ∧ buffer.drop (buffer.length - p) = List.replicate p p := by
      rw [takeWhile_ge_iff p buffer.reverse p, List.length_reverse]
      constructor
      · rintro ⟨hle, htk⟩
        refine ⟨hle, ?_⟩
        rw [List.take_reverse] at htk
        rw [← List.reverse_replicate p p, List.reverse_inj] at htk
        exact htk
      · rintro ⟨hle, hdr⟩
        refine ⟨hle, ?_⟩
        rw [List.take_reverse, hdr, List.reverse_replicate]
    by_cases hc : p ≤ (List.takeWhile (fun x => decide (x = p)) buffer.reverse).length
    · have hcount : countTrail p buffer.reverse 0 = p := by rw [hcm]; omega
      rw [hcount]
      rw [if_neg (by simp), if_pos ⟨by omega, hiff.mp hc⟩]
    · have hcount : countTrail p buffer.reverse 0 ≠ p := by rw [hcm]; omega
      rw [if_pos hcount]
      rw [if_neg ?hcnd]
      case hcnd =>
        rintro ⟨-, hcond2, hcond3⟩
        exact hc (hiff.mpr ⟨hcond2, hcond3⟩)

/-! ## Claims settled so far -/

/-- C6: for every filename `n` and filename key `k`,
`decryptFilename (encryptFilename n k) k` returns `n`; the PKCS#7 pad
always has length between 1 and 100 inclusive, and a full 100-byte pad
block is appended when the length of `n` is already a multiple of 100. -/
theorem claim_C6_filename_roundtrip (n : Bytes) (k : K) :
    decryptFilename (encryptFilename n k) k = some n ∧
    1 ≤ (padFilename n).length - n.length ∧
    (padFilename n).length - n.length ≤ padBlocksize ∧
    (n.length % padBlocksize = 0 → (padFilename n).length - n.length = padBlocksize) := by
  have hmod : n.length % padBlocksize < padBlocksize := Nat.mod_lt _ (by decide)
  have hlen : (padFilename n).length
      = n.length + (padBlocksize - n.length % padBlocksize) := by
    simp [padFilename]
  refine ⟨?_, by omega, by omega, by intro hz; omega⟩
  simp only [decryptFilename, encryptFilename, and_self, if_true, if_pos]
  exact unpad_pad n

/-- Witness for C6 at a name whose length is a multiple of 100. -/
theorem claim_C6_witness :
    decryptFilename (encryptFilename (List.replicate 100 65) (K.filenameKey 0))
        (K.filenameKey 0) = some (List.replicate 100 65) ∧
    (padFilename (List.replicate 100 65)).length - (List.replicate 100 65).length = 100 := by
  refine ⟨(claim_C6_filename_roundtrip (List.replicate 100 65) (K.filenameKey 0)).1, ?_⟩
  exact (claim_C6_filename_roundtrip (List.replicate 100 65) (K.filenameKey 0)).2.2.2 (by decide)

/-- C7: for every non-empty buffer whose last byte is `p`,
`unpadFilename` removes the last `p` bytes exactly when `p ≥ 1` and the
`p` trailing bytes all equal `p`; otherwise (including `p = 0` or fewer
than `p` trailing `p`-bytes) it returns the padding error (`none`). -/
theorem claim_C7_unpad_validation (buffer : Bytes) (p : Nat)
    (h : buffer.getLast? = some p) :
    unpadFilename buffer =
      if 1 ≤ p ∧ p ≤ buffer.length ∧ buffer.drop (buffer.length - p) = List.replicate p p
      then some (buffer.take (buffer.length - p))
      else none :=
  unpadFilename_spec buffer p h

/-- Witness for C7: a valid pad of length 2 is removed, a corrupted pad
is rejected, and a trailing zero byte is rejected. -/
theorem claim_C7_witness :
    unpadFilename [7, 2, 2] = some [7] ∧ unpadFilename [7, 2, 3] = none ∧
    unpadFilename [7, 0] = none := by
  refine ⟨?_, ?_, ?_⟩
  · rw [claim_C7_unpad_validation [7, 2, 2] 2 (by decide)]
    decide
  · rw [claim_C7_unpad_validation [7, 2, 3] 3 (by decide)]
    decide
  · rw [claim_C7_unpad_validation [7, 0] 0 (by decide)]
    decide

/-- C10: for every stream whose byte count is an exact multiple of the
block size (including the empty stream), closing the Block Store writer
inserts one extra data row with an empty payload: the recorded block
count is `total/B + 1` rather than `total/B`, and the last stored block
is empty. -/
theorem claim_C10_aligned_stream_extra_empty_block (B id : Nat) (p : Bytes)
    (hB : 0 < B) (hmul : p.length % B = 0) :
    (DataWriter.run B id p).rows.length = p.length / B + 1 ∧
    (DataWriter.run B id p).currBlock = p.length / B + 1 ∧
    (DataWriter.run B id p).rows.getLast? = some (id, p.length / B, []) := by
  rw [DataWriter.run_spec B id p hB]
  refine ⟨?_, ?_, ?_⟩
  · simp [numberFrom_length, chunksOf_length B hB]
  · simp [chunksOf_length B hB]
  · rw [List.getLast?_concat, chunksOf_length B hB, remOf_of_dvd B hB p hmul]

/-- Witness for C10: 8 bytes at block size 4 produce three rows, the
last one empty. -/
theorem claim_C10_witness :
    (DataWriter.run 4 1 [1, 2, 3, 4, 5, 6, 7, 8]).rows.length = 3 ∧
    (DataWriter.run 4 1 [1, 2, 3, 4, 5, 6, 7, 8]).currBlock = 3 ∧
    (DataWriter.run 4 1 [1, 2, 3, 4, 5, 6, 7, 8]).rows.getLast? = some (1, 2, []) :=
  claim_C10_aligned_stream_extra_empty_block 4 1 [1, 2, 3, 4, 5, 6, 7, 8]
    (by decide) (by decide)

/-! ## Writer: `src/unnamed/part_002`

Operation-level model of the live `Writer`.  The relational store is a
`DB` record; statement execution on the happy path always succeeds (the
model database is total), and sqlite's UNIQUE constraint on
`metadata.name` is the one statement failure that is modelled, since it
is reachable by reusing a file name.  The streaming codec libraries
(`encdec`, `zstd`) buffer internally; their net effect on the stored
byte stream is a function of the whole plaintext stream, supplied as a
`Codecs` parameter, and the stored rows materialise at flush time —
justified against the incremental source by `writeLoop_spec`, since
chunking is a fold over the stream. -/

/-- The stored name column: plain text or the sealed encrypted name. -/
inductive NameV where
  | plain (s : Bytes)
  | enc (c : SealedName)
deriving DecidableEq, Repr

/-- A `metadata` table row. -/
structure MetaRow where
  id : Nat
  name : NameV
  size : Nat
  blocks : Nat
  modTime : Int
  compressed : Bool
  encrypted : Bool
deriving DecidableEq, Repr

/-- The container database (tables of `src/ddl.sql`).  `nextId` is the
next rowid sqlite will assign to `metadata.id`. -/
@[ext]
structure DB where
  meta : List MetaRow
  data : List DataRow
  encMeta : List (Nat × SealedKey)
  keyParams : Option Nat
  nextId : Nat
deriving DecidableEq, Repr

/-- A freshly created (truncated) container after the DDL ran. -/
def DB.empty : DB := ⟨[], [], [], none, 1⟩

/-- Errors of the writer/reader surface (`src/unnamed/part_002`). -/
inductive Err where
  | writerClosed
  | emptyPassword
  | notEncrypted
  | noFilename
  | noFileSelected
  | wrongPassword
  | padding
  | uniqueName
  | noRows
  | authFailed
  | runtimeFault
deriving DecidableEq, Repr

/-- Stream transformers of the external codec libraries: `encE`/`decE`
are the `encdec` streaming AEAD keyed by the file-data key; `encC`/`decC`
are the `zstd` encoder at a given level and the decoder. -/
structure Codecs where
  encE : K → Bytes → Bytes
  decE : K → Bytes → Bytes
  encC : Nat → Bytes → Bytes
  decC : Bytes → Bytes

/-- Identity codecs, used to evaluate the model on concrete inputs. -/
def idCodecs : Codecs := ⟨fun _ s => s, fun _ s => s, fun _ s => s, fun s => s⟩

/-- A `Header` as consumed by `WriteHeader` (`Id` and `Size` are
documented as ignored by the writer and omitted; defaulting `ModTime`
to the current wall-clock time is outside the model). -/
structure Header where
  Name : Bytes
  ModTime : Int := 0
  Compression : Nat := 0
  Encryption : Bool := false
deriving DecidableEq, Repr

/-- The pipeline of the currently open file: which filter layers
`WriteHeader` installed, and the plaintext bytes accepted at the top. -/
structure OpenFile where
  id : Nat
  dataKey : Option K := none
  compLevel : Nat := 0
  userBytes : Bytes := []
deriving DecidableEq, Repr

/-- The `Writer` state (`src/unnamed/part_002`).  `curr` models
`currWriters`/`currDataWriter` being non-nil; `rng` drives `rand.Read`. -/
@[ext]
structure Writer where
  blocksize : Nat
  encryptionKey : Option K
  db : DB
  curr : Option OpenFile
  currBytesRead : Nat
  rng : Nat
  err : Option Err
deriving DecidableEq, Repr

/-- Model of `NewWriter`: create/truncate the container, run the DDL,
and, when a password is supplied, derive the master key via the KDF and
store the serialized KDF parameters. -/
def NewWriter (blocksize : Nat) (password : Option Bytes) : Writer :=
  match password with
  | none => ⟨blocksize, none, DB.empty, none, 0, 0, none⟩
  | some pw =>
    ⟨blocksize, some (K.kdf pw 0), { DB.empty with keyParams := some 0 }, none, 0, 0, none⟩

/-- The byte stream that reaches the Block Store for an open file:
user bytes, through the `zstd` encoder when a compression level is set,
then through the `encdec` writer when the encryption layer exists
(compression outermost on write). -/
def transformOf (c : Codecs) (f : OpenFile) : Bytes :=
  let compressed := if f.compLevel ≠ 0 then c.encC f.compLevel f.userBytes else f.userBytes
  match f.dataKey with
  | some k => c.encE k compressed
  | none => compressed

/-- Model of `Writer.flush`: close the filter stack top-down (the net
stored stream is `transformOf`), run the chunker to completion, insert
its data rows, and UPDATE the metadata row's `size` and `blocks`
columns from `currBytesRead` and the chunker's block counter.
`currBytesRead` itself is not reset, exactly as in the source. -/
def Writer.flush (w : Writer) (c : Codecs) : Writer :=
  match w.curr with
  | none => w
  | some f =>
    let dw := DataWriter.run w.blocksize f.id (transformOf c f)
    { w with
      db := { w.db with
        data := w.db.data ++ dw.rows,
        meta := w.db.meta.map fun r =>
          if r.id = f.id then { r with size := w.currBytesRead, blocks := dw.currBlock }
          else r },
      curr := none }

/-- Model of `Writer.prepareFileEncryption`: generate and store the
sealed per-file master key, stretch it, seal the filename and UPDATE
the metadata row's name.  With no master key it returns the
empty-password error WITHOUT writing it into the writer's `err` field,
exactly as the source (`return nil, ErrEmptyPassword`). -/
def Writer.prepareFileEncryption (w : Writer) (id : Nat) (name : Bytes) :
    Except Err (Writer × K) :=
  match w.encryptionKey with
  | none => Except.error Err.emptyPassword
  | some masterKey =>
    let res := generateFileMasterKey masterKey id w.rng
    let keys := stretchKey res.2
    let encName := encryptFilename name keys.1
    Except.ok
      ({ w with
          rng := w.rng + 1,
          db := { w.db with
            encMeta := w.db.encMeta ++ [(id, res.1)],
            meta := w.db.meta.map fun r =>
              if r.id = id then { r with name := NameV.enc encName } else r } },
        keys.2)

/-- Model of `Writer.WriteHeader`. -/
def Writer.WriteHeader (w : Writer) (c : Codecs) (header : Header) (transaction : Bool) :
    Option Err × Writer :=
  match w.err with
  | some e => (some e, w)
  | none =>
    if header.Name = [] then
      (some Err.noFilename, { w with err := some Err.noFilename })
    else
      let w := w.flush c
      if w.db.meta.any (fun r => r.name = NameV.plain header.Name) then
        (some Err.uniqueName, { w with err := some Err.uniqueName })
      else
        let id := w.db.nextId
        let row : MetaRow :=
          ⟨id, NameV.plain header.Name, 0, 0, header.ModTime,
            header.Compression != 0, header.Encryption⟩
        let w := { w with db := { w.db with
          meta := w.db.meta ++ [row],
          nextId := id + 1 } }
        let w := { w with curr := some { id := id } }
        if header.Encryption then
          match w.prepareFileEncryption id header.Name with
          | Except.error e => (some e, w)
          | Except.ok res =>
            let f : OpenFile :=
              { id := id, dataKey := some res.2, compLevel := header.Compression,
                userBytes := [] }
            (none, { res.1 with curr := some f })
        else
          let f : OpenFile :=
            { id := id, dataKey := none, compLevel := header.Compression, userBytes := [] }
          (none, { w with curr := some f })

/-- Model of `Writer.Write`: forward to the pipeline top and accumulate
the plaintext byte count.  With no open file the source indexes
`currWriters[len-1]` on a nil slice and panics (`runtimeFault`). -/
def Writer.Write (w : Writer) (p : Bytes) : (Nat × Option Err) × Writer :=
  match w.err with
  | some e => ((0, some e), w)
  | none =>
    match w.curr with
    | none => ((0, some Err.runtimeFault), w)
    | some f =>
      ((p.length, none),
        { w with curr := some { f with userBytes := f.userBytes ++ p },
                 currBytesRead := w.currBytesRead + p.length })

/-- Model of `Writer.WriteFile`: WriteHeader in a transaction, copy the
file contents, flush.  Note that when `WriteHeader` fails, the source
returns `writer.err` (the latched field), not the returned error. -/
def Writer.WriteFile (w : Writer) (c : Codecs) (header : Header) (contents : Bytes) :
    Option Err × Writer :=
  match w.err with
  | some e => (some e, w)
  | none =>
    let res := w.WriteHeader c header true
    match res.1 with
    | some _ => (res.2.err, res.2)
    | none =>
      match res.2.curr with
      | none => (some Err.runtimeFault, res.2)
      | some f =>
        let w2 := { res.2 with
          curr := some { f with userBytes := f.userBytes ++ contents },
          currBytesRead := contents.length }
        (none, w2.flush c)

/-- Model of `Writer.Close`: flush the current file, close the store,
and latch the closed error. -/
def Writer.Close (w : Writer) (c : Codecs) : Option Err × Writer :=
  match w.err with
  | some e => (some e, w)
  | none =>
    let w1 := w.flush c
    (none, { w1 with err := some Err.writerClosed })

/-- Sequence of `Write` calls. -/
def writeAll (w : Writer) (ps : List Bytes) : Writer :=
  ps.foldl (fun w p => (w.Write p).2) w

/-- One full file written through `WriteHeader`, a sequence of `Write`
calls, and the closing flush. -/
def writeOneFile (c : Codecs) (w : Writer) (header : Header) (tx : Bool)
    (ps : List Bytes) : Writer :=
  ((writeAll (w.WriteHeader c header tx).2 ps).Close c).2

/-- The data rows stored for one file id. -/
def dataRowsFor (db : DB) (id : Nat) : List DataRow :=
  db.data.filter (fun r => r.1 = id)

/-- A sequence of `Write` calls on an open file appends the bytes at the
pipeline top and accumulates `currBytesRead`. -/
theorem writeAll_open (ps : List Bytes) :
    ∀ (w : Writer) (f : OpenFile), w.err = none → w.curr = some f →
    writeAll w ps
      = { w with curr := some { f with userBytes := f.userBytes ++ ps.join },
                 currBytesRead := w.currBytesRead + (ps.map List.length).sum } := by
  induction ps with
  | nil =>
    intro w f herr hcurr
    simp only [writeAll, List.foldl_nil, List.join_nil, List.map_nil, List.sum_nil]
    rw [List.append_nil]
    cases w with
    | mk bs ek db curr cbr rng err =>
      simp only at hcurr
      subst hcurr
      simp
  | cons p ps ih =>
    intro w f herr hcurr
    have hw : (w.Write p).2
        = { w with curr := some { f with userBytes := f.userBytes ++ p },
                   currBytesRead := w.currBytesRead + p.length } := by
      rw [Writer.Write, herr, hcurr]
    have : writeAll w (p :: ps) = writeAll (w.Write p).2 ps := rfl
    rw [this, hw,
      ih { w with curr := some { f with userBytes := f.userBytes ++ p },
                  currBytesRead := w.currBytesRead + p.length }
        { f with userBytes := f.userBytes ++ p } herr rfl]
    simp [List.append_assoc, Nat.add_assoc]

theorem numberFrom_mem_fst (id k : Nat) (cs : List Bytes) :
    ∀ r ∈ numberFrom id k cs, r.1 = id := by
  induction cs generalizing k with
  | nil => simp [numberFrom]
  | cons c cs ih =>
    intro r hr
    rcases List.mem_cons.mp hr with h | h
    · subst h; rfl
    · exact ih (k + 1) r h

theorem numberFrom_mem_payload (id k : Nat) (cs : List Bytes) :
    ∀ r ∈ numberFrom id k cs, r.2.2 ∈ cs := by
  induction cs generalizing k with
  | nil => simp [numberFrom]
  | cons c cs ih =>
    intro r hr
    rcases List.mem_cons.mp hr with h | h
    · subst h; exact List.mem_cons_self _ _
    · exact List.mem_cons_of_mem _ (ih (k + 1) r h)

/-- The rows of a full write-then-close cycle: all carry the file id,
they are numbered `0..n`, the block counter matches the row count, all
payloads are at most one block, and all but the last are exactly one
block. -/
theorem run_rows_facts (B id : Nat) (p : Bytes) (hB : 0 < B) :
    ((DataWriter.run B id p).rows.filter (fun r => r.1 = id))
        = (DataWriter.run B id p).rows ∧
    (DataWriter.run B id p).currBlock = (DataWriter.run B id p).rows.length ∧
    ((DataWriter.run B id p).rows.map (fun r => r.2.1))
        = List.range (DataWriter.run B id p).rows.length ∧
    (∀ r ∈ (DataWriter.run B id p).rows, r.2.2.length ≤ B) ∧
    (∀ r ∈ ((DataWriter.run B id p).rows).dropLast, r.2.2.length = B) := by
  have hrows : (DataWriter.run B id p).rows
      = numberFrom id 0 (chunksOf B p)
        ++ [(id, (chunksOf B p).length, remOf B p)] := by
    rw [DataWriter.run_spec B id p hB]
  have hcb : (DataWriter.run B id p).currBlock = (chunksOf B p).length + 1 := by
    rw [DataWriter.run_spec B id p hB]
  have hlen : (DataWriter.run B id p).rows.length = (chunksOf B p).length + 1 := by
    rw [hrows]
    simp [numberFrom_length]
  refine ⟨?_, ?_, ?_, ?_, ?_⟩
  · apply List.filter_eq_self.mpr
    rw [hrows]
    intro r hr
    rcases List.mem_append.mp hr with h | h
    · simp [numberFrom_mem_fst id 0 (chunksOf B p) r h]
    · rw [List.mem_singleton] at h
      subst h
      simp
  · rw [hcb, hlen]
  · rw [hlen, hrows, List.map_append, numberFrom_map_idx]
    simp [List.range_succ, List.range_eq_range']
  · rw [hrows]
    intro r hr
    rcases List.mem_append.mp hr with h | h
    · rw [chunksOf_mem_length B p _ (numberFrom_mem_payload id 0 (chunksOf B p) r h)]
    · rw [List.mem_singleton] at h
      subst h
      exact Nat.le_of_lt (remOf_length B hB p)
  · rw [hrows, List.dropLast_concat]
    intro r hr
    exact chunksOf_mem_length B p _ (numberFrom_mem_payload id 0 (chunksOf B p) r hr)

/-! ### A single file written into a fresh container -/

/-- Closed form of writing one unencrypted file into a fresh container. -/
theorem writeOneFile_fresh_plain (c : Codecs) (B : Nat) (pwo : Option Bytes)
    (nm : Bytes) (mt : Int) (lvl : Nat) (tx : Bool) (ps : List Bytes) (hname : nm ≠ []) :
    writeOneFile c (NewWriter B pwo)
        { Name := nm, ModTime := mt, Compression := lvl, Encryption := false } tx ps
      = { blocksize := B,
          encryptionKey := (NewWriter B pwo).encryptionKey,
          db := {
            meta := [{
              id := 1, name := NameV.plain nm,
              size := (ps.map List.length).sum,
              blocks := (DataWriter.run B 1
                (if lvl ≠ 0 then c.encC lvl ps.join else ps.join)).currBlock,
              modTime := mt, compressed := lvl != 0, encrypted := false }],
            data := (DataWriter.run B 1
              (if lvl ≠ 0 then c.encC lvl ps.join else ps.join)).rows,
            encMeta := [], keyParams := (NewWriter B pwo).db.keyParams, nextId := 2 },
          curr := none,
          currBytesRead := (ps.map List.length).sum,
          rng := 0,
          err := some Err.writerClosed } := by
  have hwh : (NewWriter B pwo).WriteHeader c
      { Name := nm, ModTime := mt, Compression := lvl, Encryption := false } tx
      = (none,
        { blocksize := B, encryptionKey := (NewWriter B pwo).encryptionKey,
          db := {
            meta := [{
              id := 1, name := NameV.plain nm, size := 0, blocks := 0,
              modTime := mt, compressed := lvl != 0, encrypted := false }],
            data := [], encMeta := [],
            keyParams := (NewWriter B pwo).db.keyParams, nextId := 2 },
          curr := some { id := 1, dataKey := none, compLevel := lvl, userBytes := [] },
          currBytesRead := 0, rng := 0, err := none }) := by
    cases pwo <;>
      simp [NewWriter, Writer.WriteHeader, Writer.flush, DB.empty, hname]
  rw [writeOneFile, hwh, writeAll_open ps _ _ rfl rfl]
  simp [Writer.Close, Writer.flush, transformOf]

/-- Closed form of writing one encrypted file into a fresh container
created with a password. -/
theorem writeOneFile_fresh_enc (c : Codecs) (B : Nat) (pw nm : Bytes) (mt : Int)
    (lvl : Nat) (tx : Bool) (ps : List Bytes) (hname : nm ≠ []) :
    writeOneFile c (NewWriter B (some pw))
        { Name := nm, ModTime := mt, Compression := lvl, Encryption := true } tx ps
      = { blocksize := B, encryptionKey := some (K.kdf pw 0),
          db := {
            meta := [{
              id := 1,
              name := NameV.enc (encryptFilename nm (K.filenameKey 0)),
              size := (ps.map List.length).sum,
              blocks := (DataWriter.run B 1 (c.encE (K.fileDataKey 0)
                (if lvl ≠ 0 then c.encC lvl ps.join else ps.join))).currBlock,
              modTime := mt, compressed := lvl != 0, encrypted := true }],
            data := (DataWriter.run B 1 (c.encE (K.fileDataKey 0)
              (if lvl ≠ 0 then c.encC lvl ps.join else ps.join))).rows,
            encMeta := [(1, ⟨K.kdf pw 0, nonceOf 1, 0⟩)],
            keyParams := some 0, nextId := 2 },
          curr := none, currBytesRead := (ps.map List.length).sum,
          rng := 1, err := some Err.writerClosed } := by
  have hwh : (NewWriter B (some pw)).WriteHeader c
      { Name := nm, ModTime := mt, Compression := lvl, Encryption := true } tx
      = (none,
        { blocksize := B, encryptionKey := some (K.kdf pw 0),
          db := {
            meta := [{
              id := 1,
              name := NameV.enc (encryptFilename nm (K.filenameKey 0)),
              size := 0, blocks := 0,
              modTime := mt, compressed := lvl != 0, encrypted := true }],
            data := [], encMeta := [(1, ⟨K.kdf pw 0, nonceOf 1, 0⟩)],
            keyParams := some 0, nextId := 2 },
          curr := some { id := 1, dataKey := some (K.fileDataKey 0),
                         compLevel := lvl, userBytes := [] },
          currBytesRead := 0, rng := 1, err := none }) := by
    simp [NewWriter, Writer.WriteHeader, Writer.flush, DB.empty, hname,
      Writer.prepareFileEncryption, generateFileMasterKey, stretchKey]
  rw [writeOneFile, hwh, writeAll_open ps _ _ rfl rfl]
  simp [Writer.Close, Writer.flush, transformOf]

/-! ### A single file written from an arbitrary between-files state -/

theorem flush_of_none (w : Writer) (c : Codecs) (h : w.curr = none) : w.flush c = w := by
  simp [Writer.flush, h]

theorem map_update_of_fresh (l : List MetaRow) (id : Nat)
    (h : ∀ r ∈ l, r.id ≠ id) (g : MetaRow → MetaRow) :
    l.map (fun r => if r.id = id then g r else r) = l := by
  induction l with
  | nil => rfl
  | cons r rs ih =>
    simp only [List.map_cons]
    rw [if_neg (h r (List.mem_cons_self _ _))]
    rw [ih (fun x hx => h x (List.mem_cons_of_mem _ hx))]

/-- `WriteHeader` from a between-files state, unencrypted file: flush
is a no-op, a metadata row with the next id is inserted, and the file
opens with no data key. -/
theorem WriteHeader_ok_plain (c : Codecs) (w : Writer) (header : Header) (tx : Bool)
    (herr : w.err = none) (hcurr : w.curr = none)
    (hname : header.Name ≠ [])
    (hfresh : ∀ r ∈ w.db.meta, r.name ≠ NameV.plain header.Name)
    (henc : header.Encryption = false) :
    w.WriteHeader c header tx
      = (none,
        { w with
          db := { w.db with
            meta := w.db.meta ++ [⟨w.db.nextId, NameV.plain header.Name, 0, 0,
              header.ModTime, header.Compression != 0, false⟩],
            nextId := w.db.nextId + 1 },
          curr := some { id := w.db.nextId, dataKey := none,
                         compLevel := header.Compression, userBytes := [] },
          err := none }) := by
  have hany : (w.db.meta.any (fun r => r.name = NameV.plain header.Name)) = false := by
    simp only [List.any_eq_false, decide_eq_true_eq]
    exact hfresh
  rw [Writer.WriteHeader, herr]
  simp only
  rw [if_neg hname, flush_of_none w c hcurr]
  rw [if_neg (by rw [hany]; exact Bool.false_ne_true)]
  rw [henc]
  simp [herr]

/-- `WriteHeader` from a between-files state, encrypted file: the key
record and the sealed name are stored for the next id, and the pipeline
carries the derived file-data key. -/
theorem WriteHeader_ok_enc (c : Codecs) (w : Writer) (header : Header) (tx : Bool)
    (masterKey : K)
    (herr : w.err = none) (hcurr : w.curr = none)
    (hname : header.Name ≠ [])
    (hfresh : ∀ r ∈ w.db.meta, r.name ≠ NameV.plain header.Name)
    (hmids : ∀ r ∈ w.db.meta, r.id ≠ w.db.nextId)
    (hk : w.encryptionKey = some masterKey)
    (henc : header.Encryption = true) :
    w.WriteHeader c header tx
      = (none,
        { w with
          rng := w.rng + 1,
          db := { w.db with
            meta := w.db.meta ++ [⟨w.db.nextId,
              NameV.enc (encryptFilename header.Name (K.filenameKey w.rng)), 0, 0,
              header.ModTime, header.Compression != 0, true⟩],
            encMeta := w.db.encMeta
              ++ [(w.db.nextId, ⟨masterKey, nonceOf w.db.nextId, w.rng⟩)],
            nextId := w.db.nextId + 1 },
          curr := some { id := w.db.nextId, dataKey := some (K.fileDataKey w.rng),
                         compLevel := header.Compression, userBytes := [] },
          err := none }) := by
  have hany : (w.db.meta.any (fun r => r.name = NameV.plain header.Name)) = false := by
    simp only [List.any_eq_false, decide_eq_true_eq]
    exact hfresh
  have hmu : ∀ g : MetaRow → MetaRow,
      w.db.meta.map (fun r => if r.id = w.db.nextId then g r else r) = w.db.meta :=
    fun g => map_update_of_fresh w.db.meta w.db.nextId hmids g
  rw [Writer.WriteHeader, herr]
  simp only
  rw [if_neg hname, flush_of_none w c hcurr]
  rw [if_neg (by rw [hany]; exact Bool.false_ne_true)]
  rw [henc]
  simp only [if_true]
  simp [Writer.prepareFileEncryption, hk, generateFileMasterKey, stretchKey, herr, hmu]

/-- Net effect of writing one unencrypted file from an arbitrary
between-files writer state. -/
theorem writeOneFile_plain_general (c : Codecs) (w : Writer) (header : Header)
    (tx : Bool) (ps : List Bytes)
    (herr : w.err = none) (hcurr : w.curr = none)
    (hname : header.Name ≠ [])
    (hfresh : ∀ r ∈ w.db.meta, r.name ≠ NameV.plain header.Name)
    (hmids : ∀ r ∈ w.db.meta, r.id ≠ w.db.nextId)
    (henc : header.Encryption = false) :
    writeOneFile c w header tx ps
      = { w with
          db := { w.db with
            meta := w.db.meta ++ [⟨w.db.nextId, NameV.plain header.Name,
              w.currBytesRead + (ps.map List.length).sum,
              (DataWriter.run w.blocksize w.db.nextId
                (if header.Compression ≠ 0 then c.encC header.Compression ps.join
                  else ps.join)).currBlock,
              header.ModTime, header.Compression != 0, false⟩],
            data := w.db.data ++ (DataWriter.run w.blocksize w.db.nextId
              (if header.Compression ≠ 0 then c.encC header.Compression ps.join
                else ps.join)).rows,
            nextId := w.db.nextId + 1 },
          curr := none,
          currBytesRead := w.currBytesRead + (ps.map List.length).sum,
          err := some Err.writerClosed } := by
  have hmu : ∀ g : MetaRow → MetaRow,
      w.db.meta.map (fun r => if r.id = w.db.nextId then g r else r) = w.db.meta :=
    fun g => map_update_of_fresh w.db.meta w.db.nextId hmids g
  rw [writeOneFile, WriteHeader_ok_plain c w header tx herr hcurr hname hfresh henc,
    writeAll_open ps _ _ rfl rfl]
  simp [Writer.Close, Writer.flush, transformOf, hmu]

/-- Net effect of writing one encrypted file from an arbitrary
between-files writer state. -/
theorem writeOneFile_enc_general (c : Codecs) (w : Writer) (header : Header)
    (tx : Bool) (ps : List Bytes) (masterKey : K)
    (herr : w.err = none) (hcurr : w.curr = none)
    (hname : header.Name ≠ [])
    (hfresh : ∀ r ∈ w.db.meta, r.name ≠ NameV.plain header.Name)
    (hmids : ∀ r ∈ w.db.meta, r.id ≠ w.db.nextId)
    (hk : w.encryptionKey = some masterKey)
    (henc : header.Encryption = true) :
    writeOneFile c w header tx ps
      = { w with
          rng := w.rng + 1,
          db := { w.db with
            meta := w.db.meta ++ [⟨w.db.nextId,
              NameV.enc (encryptFilename header.Name (K.filenameKey w.rng)),
              w.currBytesRead + (ps.map List.length).sum,
              (DataWriter.run w.blocksize w.db.nextId
                (c.encE (K.fileDataKey w.rng)
                  (if header.Compression ≠ 0 then c.encC header.Compression ps.join
                    else ps.join))).currBlock,
              header.ModTime, header.Compression != 0, true⟩],
            encMeta := w.db.encMeta
              ++ [(w.db.nextId, ⟨masterKey, nonceOf w.db.nextId, w.rng⟩)],
            data := w.db.data ++ (DataWriter.run w.blocksize w.db.nextId
              (c.encE (K.fileDataKey w.rng)
                (if header.Compression ≠ 0 then c.encC header.Compression ps.join
                  else ps.join))).rows,
            nextId := w.db.nextId + 1 },
          curr := none,
          currBytesRead := w.currBytesRead + (ps.map List.length).sum,
          err := some Err.writerClosed } := by
  have hmu : ∀ g : MetaRow → MetaRow,
      (w.db.meta ++ [(⟨w.db.nextId,
          NameV.enc (encryptFilename header.Name (K.filenameKey w.rng)), 0, 0,
          header.ModTime, header.Compression != 0, true⟩ : MetaRow)]).map
            (fun r => if r.id = w.db.nextId then g r else r)
        = w.db.meta ++ [g ⟨w.db.nextId,
            NameV.enc (encryptFilename header.Name (K.filenameKey w.rng)), 0, 0,
            header.ModTime, header.Compression != 0, true⟩] := by
    intro g
    rw [List.map_append, map_update_of_fresh _ _ hmids]
    simp
  rw [writeOneFile,
    WriteHeader_ok_enc c w header tx masterKey herr hcurr hname hfresh hmids hk henc,
    writeAll_open ps _ _ rfl rfl]
  simp [Writer.Close, Writer.flush, transformOf, hmu]

/-! ## Pipeline assembly order (claim C2)

`Writer.WriteHeader` builds the write pipeline as a stack of
`io.WriteCloser`s.  These two definitions transcribe only the wiring:
each entry of the list is a layer together with the index (into the same
list) of the layer its output feeds; user bytes enter the last entry. -/

/-- A filter layer of the write pipeline. -/
inductive WLayer where
  | blockStore
  | encryptionWriter
  | compressionEncoder
deriving DecidableEq, Repr

/-- The stack assembled by `Writer.WriteHeader` in
`src/unnamed/part_002`: `currWriters` starts as `[dataWriter]` with
`currWriterId = 0`; the `encdec` writer is created on
`currWriters[currWriterId]` and appended with `currWriterId++`; the
`zstd` writer is created on `currWriters[currWriterId]` (the previously
appended layer) and appended. -/
def assembleWriters (encryption : Bool) (compression : Nat) : List (WLayer × Option Nat) :=
  let l := [(WLayer.blockStore, (none : Option Nat))]
  let currWriterId := 0
  let step1 :=
    if encryption then
      (l ++ [(WLayer.encryptionWriter, some currWriterId)], currWriterId + 1)
    else (l, currWriterId)
  if compression ≠ 0 then
    step1.1 ++ [(WLayer.compressionEncoder, some step1.2)]
  else step1.1

/-- The stack assembled by the historical `Writer.WriteHeader` in
`src/writer.go`: the `encdec` writer is created on `writer.writer` (the
data writer, index 0), but the `zstd` writer is created on
`writer.currDataWriter` (index 0 as well), regardless of the encryption
layer. -/
def assembleWritersHistorical (encryption : Bool) (compression : Nat) :
    List (WLayer × Option Nat) :=
  let l := [(WLayer.blockStore, (none : Option Nat))]
  let step1 := if encryption then l ++ [(WLayer.encryptionWriter, some 0)] else l
  if compression ≠ 0 then
    step1 ++ [(WLayer.compressionEncoder, some 0)]
  else step1

/-- C2 (code bug, evaluated at compression level 3, encryption on): in
the live writer (`src/unnamed/part_002`) the user-facing top layer is
the zstd encoder, its output feeds the encryption writer at index 1,
and the encryption writer feeds the block store at index 0 — exactly as
the claim states.  In the historical `src/writer.go` cited by the claim,
the zstd encoder is wired to index 0, the block store itself, so for an
encrypted and compressed file the compressed plaintext bypasses the
AEAD layer entirely. -/
theorem claim_C2_pipeline_wiring :
    assembleWriters true 3
      = [(WLayer.blockStore, none), (WLayer.encryptionWriter, some 0),
         (WLayer.compressionEncoder, some 1)] ∧
    (assembleWriters true 3).getLast? = some (WLayer.compressionEncoder, some 1) ∧
    (assembleWriters true 3).get? 1 = some (WLayer.encryptionWriter, some 0) ∧
    assembleWritersHistorical true 3
      = [(WLayer.blockStore, none), (WLayer.encryptionWriter, some 0),
         (WLayer.compressionEncoder, some 0)] ∧
    (assembleWritersHistorical true 3).getLast? = some (WLayer.compressionEncoder, some 0) ∧
    (assembleWritersHistorical true 3).get? 0 = some (WLayer.blockStore, none) := by
  decide

/-! ### Facts about `Writer.flush` used by several claims -/

theorem flush_encMeta (w : Writer) (c : Codecs) : (w.flush c).db.encMeta = w.db.encMeta := by
  cases h : w.curr <;> simp [Writer.flush, h]

theorem flush_nextId (w : Writer) (c : Codecs) : (w.flush c).db.nextId = w.db.nextId := by
  cases h : w.curr <;> simp [Writer.flush, h]

theorem flush_keyParams (w : Writer) (c : Codecs) :
    (w.flush c).db.keyParams = w.db.keyParams := by
  cases h : w.curr <;> simp [Writer.flush, h]

theorem flush_encryptionKey (w : Writer) (c : Codecs) :
    (w.flush c).encryptionKey = w.encryptionKey := by
  cases h : w.curr <;> simp [Writer.flush, h]

theorem flush_rng (w : Writer) (c : Codecs) : (w.flush c).rng = w.rng := by
  cases h : w.curr <;> simp [Writer.flush, h]

theorem flush_err (w : Writer) (c : Codecs) : (w.flush c).err = w.err := by
  cases h : w.curr <;> simp [Writer.flush, h]

theorem flush_blocksize (w : Writer) (c : Codecs) : (w.flush c).blocksize = w.blocksize := by
  cases h : w.curr <;> simp [Writer.flush, h]

theorem flush_currBytesRead (w : Writer) (c : Codecs) :
    (w.flush c).currBytesRead = w.currBytesRead := by
  cases h : w.curr <;> simp [Writer.flush, h]

theorem any_name_map_update (l : List MetaRow) (g : MetaRow → MetaRow)
    (hg : ∀ r, (g r).name = r.name) (p : NameV) :
    (l.map g).any (fun r => r.name = p) = l.any (fun r => r.name = p) := by
  induction l with
  | nil => rfl
  | cons r rs ih => simp only [List.map_cons, List.any_cons, hg, ih]

/-- Flushing only rewrites `size` and `blocks` of metadata rows, so the
stored names are unchanged. -/
theorem flush_meta_any_name (w : Writer) (c : Codecs) (p : NameV) :
    ((w.flush c).db.meta.any (fun r => r.name = p))
      = (w.db.meta.any (fun r => r.name = p)) := by
  cases h : w.curr with
  | none => simp [Writer.flush, h]
  | some f =>
    simp only [Writer.flush, h]
    apply any_name_map_update
    intro r
    by_cases hr : r.id = f.id <;> simp [hr]

/-- C8: when an encrypted file header is written, the stored per-file
key record is exactly the AEAD seal of the fresh per-file master key
under the writer's master key, with a nonce whose first 8 bytes are the
big-endian file id and whose remaining 4 bytes are zero; opening that
record with the same master key and the id-derived nonce recovers the
per-file master key. -/
theorem claim_C8_key_wrap (c : Codecs) (w : Writer) (header : Header) (tx : Bool)
    (masterKey : K)
    (herr : w.err = none) (hk : w.encryptionKey = some masterKey)
    (hname : header.Name ≠ []) (henc : header.Encryption = true)
    (hfresh : ∀ r ∈ w.db.meta, r.name ≠ NameV.plain header.Name) :
    ((w.WriteHeader c header tx).2.db.encMeta
        = w.db.encMeta
          ++ [(w.db.nextId, (generateFileMasterKey masterKey w.db.nextId w.rng).1)]) ∧
    (generateFileMasterKey masterKey w.db.nextId w.rng).1
        = ⟨masterKey, nonceOf w.db.nextId, w.rng⟩ ∧
    readFileKey (generateFileMasterKey masterKey w.db.nextId w.rng).1 w.db.nextId masterKey
        = some w.rng ∧
    (nonceOf w.db.nextId).length = chachaNonceSize ∧
    (nonceOf w.db.nextId).take 8 = be64 w.db.nextId ∧
    (nonceOf w.db.nextId).drop 8 = List.replicate (chachaNonceSize - 8) 0 := by
  have hany : ((w.flush c).db.meta.any
      (fun r => r.name = NameV.plain header.Name)) = false := by
    rw [flush_meta_any_name]
    simp only [List.any_eq_false, decide_eq_true_eq]
    intro r hr
    exact hfresh r hr
  refine ⟨?_, rfl, ?_, ?_, ?_, ?_⟩
  · rw [Writer.WriteHeader, herr]
    simp only
    rw [if_neg hname, if_neg (by rw [hany]; exact Bool.false_ne_true)]
    rw [henc]
    simp only [Writer.prepareFileEncryption, flush_encryptionKey, hk]
    simp [flush_encMeta, flush_nextId, flush_rng]
  · rw [readFileKey]
    simp [generateFileMasterKey]
  · simp [nonceOf, be64, chachaNonceSize]
  · rw [nonceOf, List.take_append_eq_append_take]
    have : (be64 w.db.nextId).length = 8 := by simp [be64]
    rw [List.take_of_length_le (by omega), this]
    simp
  · rw [nonceOf, List.drop_append_eq_append_drop]
    have : (be64 w.db.nextId).length = 8 := by simp [be64]
    rw [List.drop_eq_nil_of_le (by omega), this]
    simp

/-- Witness for C8 on a freshly created writer with password `[5]`. -/
theorem claim_C8_witness :
    (((NewWriter 8 (some [5])).WriteHeader idCodecs
        { Name := [97], Encryption := true } false).2.db.encMeta
      = [(1, ⟨K.kdf [5] 0, nonceOf 1, 0⟩)]) ∧
    readFileKey ⟨K.kdf [5] 0, nonceOf 1, 0⟩ 1 (K.kdf [5] 0) = some 0 ∧
    (nonceOf 1).length = 12 ∧
    (nonceOf 1).take 8 = be64 1 ∧
    (nonceOf 1).drop 8 = [0, 0, 0, 0] := by
  have h := claim_C8_key_wrap idCodecs (NewWriter 8 (some [5]))
    { Name := [97], Encryption := true } false (K.kdf [5] 0) rfl rfl
    (by decide) rfl (by intro r hr; simp [NewWriter, DB.empty] at hr)
  exact ⟨h.1, h.2.2.1, h.2.2.2.1, h.2.2.2.2.1, h.2.2.2.2.2⟩

/-- C4 (counterexample): writing file "a" (3 bytes) and then file "b"
(2 bytes) through `WriteHeader` + `Write` leaves file "b" with
`size = 5` — the running total — although only 2 plaintext bytes were
written for it.  `currBytesRead` is never reset between files. -/
theorem claim_C4_counterexample :
    (((((((NewWriter 8 none).WriteHeader idCodecs { Name := [97] } false).2.Write
        [1, 2, 3]).2.WriteHeader idCodecs { Name := [98] } false).2.Write
        [4, 5]).2.Close idCodecs).2.db.meta.map (fun r => (r.id, r.size))
      = [(1, 3), (2, 5)]) ∧
    ¬ (((((((NewWriter 8 none).WriteHeader idCodecs { Name := [97] } false).2.Write
        [1, 2, 3]).2.WriteHeader idCodecs { Name := [98] } false).2.Write
        [4, 5]).2.Close idCodecs).2.db.meta.map (fun r => (r.id, r.size))
      = [(1, 3), (2, 2)]) := by
  decide

/-- C5 (counterexample): requesting encryption from a writer created
without a password makes `WriteHeader` return the empty-password error,
but the error is not latched: the writer's error field stays empty and
the next `Write` accepts 2 bytes and returns no error, instead of
returning the latched empty-password error as the claim states. -/
theorem claim_C5_counterexample :
    ((NewWriter 8 none).WriteHeader idCodecs { Name := [97], Encryption := true } false).1
      = some Err.emptyPassword ∧
    ((NewWriter 8 none).WriteHeader idCodecs { Name := [97], Encryption := true } false).2.err
      = none ∧
    ((((NewWriter 8 none).WriteHeader idCodecs { Name := [97], Encryption := true }
        false).2.Write [1, 2]).1 = (2, none)) := by
  decide

/-- C5 (amended): every writer operation first checks the latched error
field, so once an error is latched in `err` — which happens for every
failing statement, for an empty file name, and for the closed error
after a successful `Close` — each of `WriteHeader`, `Write`,
`WriteFile` and `Close` returns exactly the latched error and leaves
the writer unchanged.  The empty-password error alone is returned by
`WriteHeader` without being latched. -/
theorem claim_C5_latched_errors_sticky (c : Codecs) (w : Writer) (e : Err)
    (h : w.err = some e) (header : Header) (tx : Bool) (p contents : Bytes) :
    w.WriteHeader c header tx = (some e, w) ∧
    w.Write p = ((0, some e), w) ∧
    w.WriteFile c header contents = (some e, w) ∧
    w.Close c = (some e, w) := by
  rw [Writer.WriteHeader, Writer.Write, Writer.WriteFile, Writer.Close, h]
  exact ⟨rfl, rfl, rfl, rfl⟩

/-- Witness for amended C5: a freshly closed writer has the closed
error latched, and all four operations return it. -/
theorem claim_C5_witness :
    (((NewWriter 8 none).Close idCodecs).2.WriteHeader idCodecs { Name := [97] } false
        = (some Err.writerClosed, ((NewWriter 8 none).Close idCodecs).2)) ∧
    (((NewWriter 8 none).Close idCodecs).2.Write [1]
        = ((0, some Err.writerClosed), ((NewWriter 8 none).Close idCodecs).2)) ∧
    (((NewWriter 8 none).Close idCodecs).2.WriteFile idCodecs { Name := [97] } [1]
        = (some Err.writerClosed, ((NewWriter 8 none).Close idCodecs).2)) ∧
    (((NewWriter 8 none).Close idCodecs).2.Close idCodecs
        = (some Err.writerClosed, ((NewWriter 8 none).Close idCodecs).2)) :=
  claim_C5_latched_errors_sticky idCodecs ((NewWriter 8 none).Close idCodecs).2
    Err.writerClosed (by decide) { Name := [97] } false [1] [1]

/-- C3: for every file written from a writer in a between-files state —
any prior container contents, block size, compression level, encryption
flag, and write sequence — after the closing flush the metadata row
inserted for the file carries the fresh id, its `blocks` column equals
the number of data rows stored for that id, those rows carry the
consecutive block indices `0..N-1`, every payload is at most the
configured block size, and every row except the last has exactly the
block size. -/
theorem claim_C3_blocks_match_rows (c : Codecs) (w : Writer) (header : Header)
    (tx : Bool) (ps : List Bytes)
    (hB : 0 < w.blocksize)
    (herr : w.err = none) (hcurr : w.curr = none)
    (hname : header.Name ≠ [])
    (hfresh : ∀ r ∈ w.db.meta, r.name ≠ NameV.plain header.Name)
    (hmids : ∀ r ∈ w.db.meta, r.id ≠ w.db.nextId)
    (hdids : ∀ r ∈ w.db.data, r.1 ≠ w.db.nextId)
    (hk : header.Encryption = true → w.encryptionKey.isSome) :
    ∃ m ∈ (writeOneFile c w header tx ps).db.meta,
      m.id = w.db.nextId ∧
      m.blocks = (dataRowsFor (writeOneFile c w header tx ps).db w.db.nextId).length ∧
      ((dataRowsFor (writeOneFile c w header tx ps).db w.db.nextId).map
        (fun r => r.2.1)) = List.range m.blocks ∧
      (∀ r ∈ dataRowsFor (writeOneFile c w header tx ps).db w.db.nextId,
        r.2.2.length ≤ w.blocksize) ∧
      (∀ r ∈ (dataRowsFor (writeOneFile c w header tx ps).db w.db.nextId).dropLast,
        r.2.2.length = w.blocksize) := by
  cases hEnc : header.Encryption with
  | false =>
    have hw := writeOneFile_plain_general c w header tx ps herr hcurr hname hfresh
      hmids hEnc
    rcases run_rows_facts w.blocksize w.db.nextId
        (if header.Compression ≠ 0 then c.encC header.Compression ps.join
          else ps.join) hB with
      ⟨hfil, hcb, hidx, hle, hlast⟩
    have hdr2 : dataRowsFor (writeOneFile c w header tx ps).db w.db.nextId
        = (DataWriter.run w.blocksize w.db.nextId
            (if header.Compression ≠ 0 then c.encC header.Compression ps.join
              else ps.join)).rows := by
      rw [hw]
      simp only [dataRowsFor, List.filter_append]
      rw [List.filter_eq_nil.mpr
        (by intro a ha; simp only [decide_eq_true_eq]; exact hdids a ha)]
      rw [List.nil_append]
      exact hfil
    have hmeta : (writeOneFile c w header tx ps).db.meta
        = w.db.meta ++ [{
            id := w.db.nextId, name := NameV.plain header.Name,
            size := w.currBytesRead + (ps.map List.length).sum,
            blocks := (DataWriter.run w.blocksize w.db.nextId
              (if header.Compression ≠ 0 then c.encC header.Compression ps.join
                else ps.join)).currBlock,
            modTime := header.ModTime, compressed := header.Compression != 0,
            encrypted := false }] := by
      rw [hw]
    refine ⟨{ id := w.db.nextId, name := NameV.plain header.Name,
              size := w.currBytesRead + (ps.map List.length).sum,
              blocks := (DataWriter.run w.blocksize w.db.nextId
                (if header.Compression ≠ 0 then c.encC header.Compression ps.join
                  else ps.join)).currBlock,
              modTime := header.ModTime, compressed := header.Compression != 0,
              encrypted := false },
      ?_, rfl, ?_, ?_, ?_, ?_⟩
    · rw [hmeta]
      exact List.mem_append_right _ (List.mem_singleton.mpr rfl)
    · rw [hdr2]
      exact hcb
    · rw [hdr2]
      exact hidx.trans (congrArg List.range hcb.symm)
    · rw [hdr2]
      exact hle
    · rw [hdr2]
      exact hlast
  | true =>
    have hks := hk hEnc
    cases ho : w.encryptionKey with
    | none =>
      rw [ho] at hks
      simp at hks
    | some masterKey =>
      have hw := writeOneFile_enc_general c w header tx ps masterKey herr hcurr hname
        hfresh hmids ho hEnc
      rcases run_rows_facts w.blocksize w.db.nextId
          (c.encE (K.fileDataKey w.rng)
            (if header.Compression ≠ 0 then c.encC header.Compression ps.join
              else ps.join)) hB with
        ⟨hfil, hcb, hidx, hle, hlast⟩
      have hdr2 : dataRowsFor (writeOneFile c w header tx ps).db w.db.nextId
          = (DataWriter.run w.blocksize w.db.nextId
              (c.encE (K.fileDataKey w.rng)
                (if header.Compression ≠ 0 then c.encC header.Compression ps.join
                  else ps.join))).rows := by
        rw [hw]
        simp only [dataRowsFor, List.filter_append]
        rw [List.filter_eq_nil.mpr
          (by intro a ha; simp only [decide_eq_true_eq]; exact hdids a ha)]
        rw [List.nil_append]
        exact hfil
      have hmeta : (writeOneFile c w header tx ps).db.meta
          = w.db.meta ++ [{
              id := w.db.nextId,
              name := NameV.enc (encryptFilename header.Name (K.filenameKey w.rng)),
              size := w.currBytesRead + (ps.map List.length).sum,
              blocks := (DataWriter.run w.blocksize w.db.nextId
                (c.encE (K.fileDataKey w.rng)
                  (if header.Compression ≠ 0 then c.encC header.Compression ps.join
                    else ps.join))).currBlock,
              modTime := header.ModTime, compressed := header.Compression != 0,
              encrypted := true }] := by
        rw [hw]
      refine ⟨{ id := w.db.nextId,
                name := NameV.enc (encryptFilename header.Name (K.filenameKey w.rng)),
                size := w.currBytesRead + (ps.map List.length).sum,
                blocks := (DataWriter.run w.blocksize w.db.nextId
                  (c.encE (K.fileDataKey w.rng)
                    (if header.Compression ≠ 0 then c.encC header.Compression ps.join
                      else ps.join))).currBlock,
                modTime := header.ModTime, compressed := header.Compression != 0,
                encrypted := true },
        ?_, rfl, ?_, ?_, ?_, ?_⟩
      · rw [hmeta]
        exact List.mem_append_right _ (List.mem_singleton.mpr rfl)
      · rw [hdr2]
        exact hcb
      · rw [hdr2]
        exact hidx.trans (congrArg List.range hcb.symm)
      · rw [hdr2]
        exact hle
      · rw [hdr2]
        exact hlast

/-- Witness for C3: a container already holding one four-byte file
(block size 3), into which a second file of seven bytes is written over
three `Write` calls. -/
theorem claim_C3_witness :
    ∃ m ∈ (writeOneFile idCodecs
        (Writer.WriteFile (NewWriter 3 none) idCodecs { Name := [98] } [7, 8, 9, 10]).2
        { Name := [97], ModTime := 0, Compression := 0, Encryption := false }
        false [[1, 2], [3, 4, 5], [6]]).db.meta,
      m.id = 2 ∧
      m.blocks = (dataRowsFor (writeOneFile idCodecs
        (Writer.WriteFile (NewWriter 3 none) idCodecs { Name := [98] } [7, 8, 9, 10]).2
        { Name := [97], ModTime := 0, Compression := 0, Encryption := false }
        false [[1, 2], [3, 4, 5], [6]]).db 2).length ∧
      ((dataRowsFor (writeOneFile idCodecs
        (Writer.WriteFile (NewWriter 3 none) idCodecs { Name := [98] } [7, 8, 9, 10]).2
        { Name := [97], ModTime := 0, Compression := 0, Encryption := false }
        false [[1, 2], [3, 4, 5], [6]]).db 2).map
          (fun r => r.2.1)) = List.range m.blocks ∧
      (∀ r ∈ dataRowsFor (writeOneFile idCodecs
        (Writer.WriteFile (NewWriter 3 none) idCodecs { Name := [98] } [7, 8, 9, 10]).2
        { Name := [97], ModTime := 0, Compression := 0, Encryption := false }
        false [[1, 2], [3, 4, 5], [6]]).db 2, r.2.2.length ≤ 3) ∧
      (∀ r ∈ (dataRowsFor (writeOneFile idCodecs
        (Writer.WriteFile (NewWriter 3 none) idCodecs { Name := [98] } [7, 8, 9, 10]).2
        { Name := [97], ModTime := 0, Compression := 0, Encryption := false }
        false [[1, 2], [3, 4, 5], [6]]).db 2).dropLast, r.2.2.length = 3) :=
  claim_C3_blocks_match_rows idCodecs
    (Writer.WriteFile (NewWriter 3 none) idCodecs { Name := [98] } [7, 8, 9, 10]).2
    { Name := [97], ModTime := 0, Compression := 0, Encryption := false }
    false [[1, 2], [3, 4, 5], [6]]
    (by decide) (by decide) (by decide) (by decide) (by decide) (by decide) (by decide)
    (fun h => absurd h (by decide))

/-! ## Reader: the live reader in `src/cmd/arc.go` (package `arc` part)

The reader is modelled as pure functions over the `DB`.  Each function
also returns the list of tables it read, so that "never reads file
data" claims are about the model rather than about its proof. -/

/-- The four tables of the schema, for access logging. -/
inductive Tbl where
  | metadata
  | data
  | encryptionMetadata
  | encryptionKeyParams
deriving DecidableEq, Repr

/-- Model of `Reader.readEncryptionKey`: load the stored KDF parameters
(`ErrNotEncrypted` when the row is missing) and derive the master key
from the supplied password. -/
def readEncryptionKey (db : DB) (password : Bytes) : Except Err K × List Tbl :=
  match db.keyParams with
  | none => (Except.error Err.notEncrypted, [Tbl.encryptionKeyParams])
  | some params => (Except.ok (K.kdf password params), [Tbl.encryptionKeyParams])

/-- Model of `Reader.fileEncryptionKeys`: select the key record by id,
AEAD-open it with the master key, and stretch the recovered per-file
master key. -/
def fileEncryptionKeys (db : DB) (encryptionKey : K) (id : Nat) :
    Except Err (K × K) × List Tbl :=
  match db.encMeta.find? (fun r => r.1 = id) with
  | none => (Except.error Err.noRows, [Tbl.encryptionMetadata])
  | some rec =>
    match readFileKey rec.2 id encryptionKey with
    | none => (Except.error Err.authFailed, [Tbl.encryptionMetadata])
    | some fm => (Except.ok (stretchKey fm), [Tbl.encryptionMetadata])

/-- Model of `Reader.verifyPassword`: read the id of any one key record
(`LIMIT 1`; `sql.ErrNoRows` when the table is empty is returned as-is),
then try to open that record; any opening failure is surfaced as the
wrong-password error. -/
def verifyPassword (db : DB) (encryptionKey : K) : Option Err × List Tbl :=
  match db.encMeta.head? with
  | none => (some Err.noRows, [Tbl.encryptionMetadata])
  | some rec =>
    match fileEncryptionKeys db encryptionKey rec.1 with
    | (Except.error _, log) => (some Err.wrongPassword, Tbl.encryptionMetadata :: log)
    | (Except.ok _, log) => (none, Tbl.encryptionMetadata :: log)

/-- Model of `NewReader` followed by `SetPassword` when a password is
given: probe the KDF-params row, derive the master key and verify the
password.  Returns the master key the reader will use (none when opened
without a password). -/
def NewReader (db : DB) (password : Option Bytes) : Except Err (Option K) × List Tbl :=
  match password with
  | none => (Except.ok none, [Tbl.encryptionKeyParams])
  | some pw =>
    match readEncryptionKey db pw with
    | (Except.error e, log) => (Except.error e, Tbl.encryptionKeyParams :: log)
    | (Except.ok mkey, log) =>
      match verifyPassword db mkey with
      | (some e, log2) => (Except.error e, Tbl.encryptionKeyParams :: (log ++ log2))
      | (none, log2) => (Except.ok (some mkey), Tbl.encryptionKeyParams :: (log ++ log2))

/-- The cursor state of `dataReader`: remaining rows of the ordered
query, the current block buffer, and the `lastBlock` flag. -/
structure DataReader where
  rows : List Bytes
  buffer : Bytes
  lastBlock : Bool
deriving DecidableEq, Repr

/-- Model of `dataReader.readChunk`: `lastBlock = !rows.Next()`; on a
missed `Scan` the buffer is left empty. -/
def DataReader.readChunk (r : DataReader) : DataReader :=
  match r.rows with
  | [] => { r with lastBlock := true, buffer := [] }
  | b :: rest => { rows := rest, buffer := b, lastBlock := false }

/-- Drain-to-EOF semantics of `dataReader.Read`: while data remains,
serve the buffer, else fetch the next row, else end-of-stream.  Each
row costs at most two iterations, so the fuel in `drainRows` is exact. -/
def drainLoop : Nat → DataReader → Bytes
  | 0, _ => []
  | fuel + 1, st =>
    if st.buffer = [] then
      if st.lastBlock then []
      else drainLoop fuel st.readChunk
    else st.buffer ++ drainLoop fuel { st with buffer := [] }

/-- Everything `dataReader.Read` returns until end-of-stream, starting
from a fresh cursor over the given rows. -/
def drainRows (rows : List Bytes) : Bytes :=
  drainLoop (2 * rows.length + 2) { rows := rows, buffer := [], lastBlock := false }

theorem drainLoop_spec (rows : List Bytes) :
    ∀ fuel, 2 * rows.length + 2 ≤ fuel →
      drainLoop fuel { rows := rows, buffer := [], lastBlock := false } = rows.join := by
  induction rows with
  | nil =>
    intro fuel h
    obtain ⟨f, rfl⟩ : ∃ f, fuel = f + 2 := ⟨fuel - 2, by omega⟩
    simp [drainLoop, DataReader.readChunk]
  | cons r rs ih =>
    intro fuel h
    obtain ⟨f, rfl⟩ : ∃ f, fuel = f + 1 := ⟨fuel - 1, by simp at h; omega⟩
    have hstep1 : drainLoop (f + 1) { rows := r :: rs, buffer := [], lastBlock := false }
        = drainLoop f { rows := rs, buffer := r, lastBlock := false } := rfl
    rw [hstep1]
    by_cases hr : r = []
    · subst hr
      rw [ih f (by simp at h; omega)]
      simp
    · obtain ⟨f', rfl⟩ : ∃ f', f = f' + 1 := ⟨f - 1, by simp at h; omega⟩
      have hstep2 : drainLoop (f' + 1) { rows := rs, buffer := r, lastBlock := false }
          = r ++ drainLoop f' { rows := rs, buffer := [], lastBlock := false } := by
        rw [drainLoop]
        rw [if_neg hr]
      rw [hstep2, ih f' (by simp at h; omega)]
      simp

/-- Draining a fresh cursor concatenates the rows in order. -/
theorem drainRows_join (rows : List Bytes) : drainRows rows = rows.join :=
  drainLoop_spec rows _ (Nat.le_refl _)

/-- Insertion into a list sorted by block index (`ORDER BY block_id
ASC` of `queryDataById`). -/
def insertByIdx (x : Nat × Bytes) : List (Nat × Bytes) → List (Nat × Bytes)
  | [] => [x]
  | y :: ys => if x.1 ≤ y.1 then x :: y :: ys else y :: insertByIdx x ys

/-- Insertion sort by block index. -/
def sortByIdx : List (Nat × Bytes) → List (Nat × Bytes)
  | [] => []
  | x :: xs => insertByIdx x (sortByIdx xs)

/-- The payloads `queryDataById` returns for one id, in ascending
`block_id` order. -/
def dataRowsOrdered (db : DB) (id : Nat) : List Bytes :=
  (sortByIdx ((db.data.filter (fun r => r.1 = id)).map (fun r => (r.2.1, r.2.2)))).map
    (fun r => r.2)

theorem sortByIdx_of_sorted :
    ∀ l : List (Nat × Bytes), List.Pairwise (fun a b => a.1 < b.1) l → sortByIdx l = l := by
  intro l hl
  induction l with
  | nil => rfl
  | cons x xs ih =>
    rw [sortByIdx, ih (List.Pairwise.of_cons hl)]
    cases xs with
    | nil => rfl
    | cons y ys =>
      rw [insertByIdx]
      rw [if_pos (Nat.le_of_lt ((List.pairwise_cons.mp hl).1 y (List.mem_cons_self _ _)))]

/-- Model of `Reader.Open` followed by reading the current file to
end-of-stream: load the compressed/encrypted flags by id, reassemble
the ordered blocks, then decrypt (innermost) and decompress
(outermost) exactly when the flags say so. -/
def openAndReadAll (c : Codecs) (db : DB) (mkey : Option K) (id : Nat) :
    Except Err Bytes :=
  match db.meta.find? (fun r => r.id = id) with
  | none => Except.error Err.noRows
  | some row =>
    if row.encrypted then
      match mkey with
      | none => Except.error Err.emptyPassword
      | some mk =>
        match (fileEncryptionKeys db mk id).1 with
        | Except.error e => Except.error e
        | Except.ok keys =>
          let s1 := c.decE keys.2 (drainRows (dataRowsOrdered db id))
          Except.ok (if row.compressed then c.decC s1 else s1)
    else
      Except.ok (if row.compressed then c.decC (drainRows (dataRowsOrdered db id))
        else drainRows (dataRowsOrdered db id))

theorem numberFrom_pairs_lb (id k : Nat) (cs : List Bytes) (last : Bytes) :
    ∀ a ∈ ((numberFrom id k cs) ++ [(id, k + cs.length, last)]).map
      (fun r => (r.2.1, r.2.2)), k ≤ a.1 := by
  induction cs generalizing k with
  | nil =>
    intro a ha
    simp only [numberFrom, List.nil_append, List.map_cons, List.map_nil,
      List.mem_singleton] at ha
    subst ha
    simp
  | cons c cs ih =>
    intro a ha
    simp only [numberFrom, List.cons_append, List.map_cons, List.mem_cons] at ha
    rcases ha with h | h
    · subst h; exact Nat.le_refl k
    · have harith : k + (c :: cs).length = (k + 1) + cs.length := by
        simp
        omega
      rw [harith] at h
      exact Nat.le_trans (Nat.le_succ k) (ih (k + 1) a h)

theorem numberFrom_pairs_pairwise (id k : Nat) (cs : List Bytes) (last : Bytes) :
    List.Pairwise (fun a b => a.1 < b.1)
      (((numberFrom id k cs) ++ [(id, k + cs.length, last)]).map
        (fun r => (r.2.1, r.2.2))) := by
  induction cs generalizing k with
  | nil => simp [numberFrom]
  | cons c cs ih =>
    have harith : k + (c :: cs).length = (k + 1) + cs.length := by
      simp
      omega
    rw [harith]
    simp only [numberFrom, List.cons_append, List.map_cons]
    rw [List.pairwise_cons]
    refine ⟨?_, ih (k + 1)⟩
    intro a ha
    have hlb := numberFrom_pairs_lb id (k + 1) cs last a ha
    exact hlb

/-- The ordered data query over the rows produced by one full write
cycle returns the full blocks followed by the final remainder row. -/
theorem dataRowsOrdered_run (B id : Nat) (p : Bytes) (hB : 0 < B) (db : DB)
    (hdata : db.data = (DataWriter.run B id p).rows) :
    dataRowsOrdered db id = chunksOf B p ++ [remOf B p] := by
  have hrows : (DataWriter.run B id p).rows
      = numberFrom id 0 (chunksOf B p)
        ++ [(id, (chunksOf B p).length, remOf B p)] := by
    rw [DataWriter.run_spec B id p hB]
  rw [dataRowsOrdered, hdata, hrows]
  have hfil : (numberFrom id 0 (chunksOf B p)
      ++ [(id, (chunksOf B p).length, remOf B p)]).filter (fun r => r.1 = id)
      = numberFrom id 0 (chunksOf B p)
        ++ [(id, (chunksOf B p).length, remOf B p)] := by
    apply List.filter_eq_self.mpr
    intro r hr
    rcases List.mem_append.mp hr with h | h
    · simp [numberFrom_mem_fst id 0 (chunksOf B p) r h]
    · rw [List.mem_singleton] at h
      subst h
      simp
  rw [hfil]
  have hpair := numberFrom_pairs_pairwise id 0 (chunksOf B p) (remOf B p)
  rw [Nat.zero_add] at hpair
  rw [sortByIdx_of_sorted _ hpair]
  rw [List.map_map, List.map_append]
  have hpay : (numberFrom id 0 (chunksOf B p)).map
      ((fun (r : Nat × Bytes) => r.2) ∘ (fun (r : DataRow) => (r.2.1, r.2.2)))
      = chunksOf B p := numberFrom_map_payload id 0 (chunksOf B p)
  rw [hpay]
  simp

/-- Draining the ordered query of one written file recovers the exact
byte stream that was fed to the Block Store. -/
theorem drain_run (B id : Nat) (p : Bytes) (hB : 0 < B) (db : DB)
    (hdata : db.data = (DataWriter.run B id p).rows) :
    drainRows (dataRowsOrdered db id) = p := by
  rw [dataRowsOrdered_run B id p hB db hdata, drainRows_join]
  have h1 : (chunksOf B p ++ [remOf B p]).join = (chunksOf B p).join ++ remOf B p := by
    simp
  rw [h1]
  exact chunksOf_join B p

/-- C9: opening a container created with password `A` using any
password `B ≠ A` returns the wrong-password error, and the verification
reads only the KDF-parameter row and a file key record — never the
`data` table. -/
theorem claim_C9_wrong_password (db : DB) (A B : Bytes) (prms id fm : Nat)
    (rest : List (Nat × SealedKey))
    (hparams : db.keyParams = some prms)
    (hhead : db.encMeta = (id, ⟨K.kdf A prms, nonceOf id, fm⟩) :: rest)
    (hAB : A ≠ B) :
    (NewReader db (some B)).1 = Except.error Err.wrongPassword ∧
    Tbl.data ∉ (NewReader db (some B)).2 := by
  have hre : readEncryptionKey db B
      = (Except.ok (K.kdf B prms), [Tbl.encryptionKeyParams]) := by
    rw [readEncryptionKey, hparams]
  have hfk : db.encMeta.find? (fun r => r.1 = id)
      = some (id, ⟨K.kdf A prms, nonceOf id, fm⟩) := by
    rw [hhead]
    simp [List.find?]
  have hrfk : readFileKey (⟨K.kdf A prms, nonceOf id, fm⟩ : SealedKey) id
      (K.kdf B prms) = none := by
    rw [readFileKey]
    rw [if_neg]
    rintro ⟨hkey, -⟩
    have hkey' : K.kdf A prms = K.kdf B prms := hkey
    injection hkey' with h1 h2
    exact hAB h1
  have hfek : fileEncryptionKeys db (K.kdf B prms) id
      = (Except.error Err.authFailed, [Tbl.encryptionMetadata]) := by
    rw [fileEncryptionKeys, hfk]
    simp [hrfk]
  have hvp : verifyPassword db (K.kdf B prms)
      = (some Err.wrongPassword, [Tbl.encryptionMetadata, Tbl.encryptionMetadata]) := by
    rw [verifyPassword, hhead]
    simp [hfek]
  have hnr : NewReader db (some B)
      = (Except.error Err.wrongPassword,
        Tbl.encryptionKeyParams
          :: ([Tbl.encryptionKeyParams]
            ++ [Tbl.encryptionMetadata, Tbl.encryptionMetadata])) := by
    rw [NewReader, hre]
    simp only
    rw [hvp]
  rw [hnr]
  exact ⟨rfl, by decide⟩

/-- Witness for C9: a container written with password `[1]` and one
encrypted file, opened with password `[2]`. -/
theorem claim_C9_witness :
    (NewReader (writeOneFile idCodecs (NewWriter 8 (some [1]))
        { Name := [97], Encryption := true } true [[5]]).db (some [2])).1
      = Except.error Err.wrongPassword ∧
    Tbl.data ∉ (NewReader (writeOneFile idCodecs (NewWriter 8 (some [1]))
        { Name := [97], Encryption := true } true [[5]]).db (some [2])).2 :=
  claim_C9_wrong_password _ [1] [2] 0 1 0 [] (by decide) (by decide) (by decide)

/-- C1: for every byte sequence and every combination of compression
on/off and encryption on/off, writing the bytes as one file into a
fresh container and reading that file back by id returns exactly the
original bytes, provided the external codecs invert themselves
(`decE k ∘ encE k = id`, `decC ∘ encC lvl = id`). -/
theorem claim_C1_roundtrip (c : Codecs) (B : Nat) (encFlag : Bool) (lvl : Nat)
    (pw nm bytes : Bytes) (mt : Int) (tx : Bool)
    (hB : 0 < B) (hname : nm ≠ [])
    (hE : ∀ k s, c.decE k (c.encE k s) = s)
    (hC : ∀ l s, c.decC (c.encC l s) = s) :
    ∃ mkey,
      (NewReader (writeOneFile c (NewWriter B (if encFlag then some pw else none))
          { Name := nm, ModTime := mt, Compression := lvl, Encryption := encFlag }
          tx [bytes]).db (if encFlag then some pw else none)).1 = Except.ok mkey ∧
      openAndReadAll c (writeOneFile c (NewWriter B (if encFlag then some pw else none))
          { Name := nm, ModTime := mt, Compression := lvl, Encryption := encFlag }
          tx [bytes]).db mkey 1 = Except.ok bytes := by
  cases encFlag with
  | false =>
    simp only [Bool.false_eq_true, if_false]
    have hw := writeOneFile_fresh_plain c B none nm mt lvl tx [bytes] hname
    refine ⟨none, ?_, ?_⟩
    · rw [hw]
      rfl
    · have hdata : (writeOneFile c (NewWriter B none)
          { Name := nm, ModTime := mt, Compression := lvl, Encryption := false }
          tx [bytes]).db.data
          = (DataWriter.run B 1 (if lvl ≠ 0 then c.encC lvl ([bytes] : List Bytes).join
              else ([bytes] : List Bytes).join)).rows := by
        rw [hw]
      have hfind : (writeOneFile c (NewWriter B none)
          { Name := nm, ModTime := mt, Compression := lvl, Encryption := false }
          tx [bytes]).db.meta.find? (fun r => r.id = 1)
          = some { id := 1, name := NameV.plain nm,
                   size := (([bytes] : List Bytes).map List.length).sum,
                   blocks := (DataWriter.run B 1
                     (if lvl ≠ 0 then c.encC lvl ([bytes] : List Bytes).join
                       else ([bytes] : List Bytes).join)).currBlock,
                   modTime := mt, compressed := lvl != 0, encrypted := false } := by
        rw [hw]
        simp [List.find?]
      have hdrain := drain_run B 1
        (if lvl ≠ 0 then c.encC lvl ([bytes] : List Bytes).join
          else ([bytes] : List Bytes).join) hB _ hdata
      simp only [openAndReadAll, hfind]
      rw [hdrain]
      by_cases hlvl : lvl = 0
      · subst hlvl
        simp
      · have hbne : (lvl != 0) = true := by simp [hlvl]
        simp [hbne, hlvl, hC]
  | true =>
    simp only [if_true]
    have hw := writeOneFile_fresh_enc c B pw nm mt lvl tx [bytes] hname
    refine ⟨some (K.kdf pw 0), ?_, ?_⟩
    · rw [hw]
      simp [NewReader, readEncryptionKey, verifyPassword, fileEncryptionKeys,
        readFileKey, stretchKey, List.find?]
    · have hdata : (writeOneFile c (NewWriter B (some pw))
          { Name := nm, ModTime := mt, Compression := lvl, Encryption := true }
          tx [bytes]).db.data
          = (DataWriter.run B 1 (c.encE (K.fileDataKey 0)
              (if lvl ≠ 0 then c.encC lvl ([bytes] : List Bytes).join
                else ([bytes] : List Bytes).join))).rows := by
        rw [hw]
      have hfind : (writeOneFile c (NewWriter B (some pw))
          { Name := nm, ModTime := mt, Compression := lvl, Encryption := true }
          tx [bytes]).db.meta.find? (fun r => r.id = 1)
          = some { id := 1, name := NameV.enc (encryptFilename nm (K.filenameKey 0)),
                   size := (([bytes] : List Bytes).map List.length).sum,
                   blocks := (DataWriter.run B 1 (c.encE (K.fileDataKey 0)
                     (if lvl ≠ 0 then c.encC lvl ([bytes] : List Bytes).join
                       else ([bytes] : List Bytes).join))).currBlock,
                   modTime := mt, compressed := lvl != 0, encrypted := true } := by
        rw [hw]
        simp [List.find?]
      have hfek : (fileEncryptionKeys (writeOneFile c (NewWriter B (some pw))
          { Name := nm, ModTime := mt, Compression := lvl, Encryption := true }
          tx [bytes]).db (K.kdf pw 0) 1).1 = Except.ok (stretchKey 0) := by
        rw [hw]
        simp [fileEncryptionKeys, readFileKey, List.find?]
      have hdrain := drain_run B 1
        (c.encE (K.fileDataKey 0) (if lvl ≠ 0 then c.encC lvl ([bytes] : List Bytes).join
          else ([bytes] : List Bytes).join)) hB _ hdata
      simp only [openAndReadAll, hfind, hfek, stretchKey]
      rw [hdrain]
      by_cases hlvl : lvl = 0
      · subst hlvl
        simp [hE]
      · have hbne : (lvl != 0) = true := by simp [hlvl]
        simp [hbne, hlvl, hE, hC]

/-- Witness for C1 with identity codecs, both compression and
encryption on, block size 4 and nine bytes. -/
theorem claim_C1_witness :
    ∃ mkey,
      (NewReader (writeOneFile idCodecs (NewWriter 4 (if true then some [7] else none))
          { Name := [97], ModTime := 0, Compression := 3, Encryption := true }
          true [[1, 2, 3, 4, 5, 6, 7, 8, 9]]).db
        (if true then some [7] else none)).1 = Except.ok mkey ∧
      openAndReadAll idCodecs
        (writeOneFile idCodecs (NewWriter 4 (if true then some [7] else none))
          { Name := [97], ModTime := 0, Compression := 3, Encryption := true }
          true [[1, 2, 3, 4, 5, 6, 7, 8, 9]]).db mkey 1
        = Except.ok [1, 2, 3, 4, 5, 6, 7, 8, 9] :=
  claim_C1_roundtrip idCodecs 4 true 3 [7] [97] [1, 2, 3, 4, 5, 6, 7, 8, 9] 0 true
    (by decide) (by decide) (fun _ _ => rfl) (fun _ _ => rfl)

end Arc
